import Mathlib

/-!
Verification of the `logics` repository: two programs reducing combinatorial
problems to SAT/SMT formulas.

* `turing-machine-as-sat/solution.py`: encodes bounded word acceptance of a
  Turing machine as a Boolean formula (classes `X`, `Y`, `Z` for variable
  naming, `TMAcceptanceSAT` for formula generation, solving and decoding).
* `nonogram/nonogram.py`: encodes a nonogram puzzle as an SMT formula over an
  uninterpreted cell function and integer start variables (`StartIndex`,
  `NonogramFormulasGenerator`, `get_solution`).

The formula builders are embedded as Lean functions producing formula syntax
trees, with an evaluation semantics replacing the external z3 solver; the
solver itself is modelled as an abstract oracle.  Python's `str()` on
nonnegative integers is `Nat.repr`.
-/

/-! ### Decimal representation: facts about `Nat.repr`

Python's `"x_{i}_{q}".format(...)` renders nonnegative integers in decimal,
which is exactly `Nat.repr`.  We relate `Nat.repr` to a simple recursive
digit-list function and prove the two facts the naming scheme needs:
decimal strings contain only digit characters (hence never an underscore)
and distinct numbers have distinct decimal strings. -/

def natChars (n : Nat) : List Char :=
  if n < 10 then [Nat.digitChar n]
  else natChars (n / 10) ++ [Nat.digitChar (n % 10)]
decreasing_by
  exact Nat.div_lt_self (by omega) (by omega)

theorem toDigitsCore_eq_natChars :
    ∀ (fuel n : Nat) (ds : List Char), n < fuel →
      Nat.toDigitsCore 10 fuel n ds = natChars n ++ ds := by
  intro fuel
  induction fuel with
  | zero => intro n ds h; omega
  | succ fuel ih =>
    intro n ds h
    rw [Nat.toDigitsCore]
    by_cases h10 : n / 10 = 0
    · have hn : n < 10 := by omega
      rw [if_pos h10, natChars, if_pos hn, Nat.mod_eq_of_lt hn]
      simp
    · have hn : ¬ n < 10 := by
        intro hc
        exact h10 (Nat.div_eq_of_lt hc)
      rw [if_neg h10, ih (n / 10) _ (by omega)]
      conv_rhs => rw [natChars, if_neg hn]
      simp

theorem repr_data (n : Nat) : (Nat.repr n).data = natChars n := by
  rw [Nat.repr, Nat.toDigits, toDigitsCore_eq_natChars (n + 1) n [] (by omega)]
  simp [List.asString]

theorem digitChar_mem_digits (n : Nat) (h : n < 10) :
    Nat.digitChar n ∈ ['0','1','2','3','4','5','6','7','8','9'] := by
  revert n
  decide

theorem natChars_digits (n : Nat) :
    ∀ c ∈ natChars n, c ∈ ['0','1','2','3','4','5','6','7','8','9'] := by
  induction n using Nat.strong_induction_on with
  | _ n ih =>
    intro c hc
    rw [natChars] at hc
    by_cases hn : n < 10
    · rw [if_pos hn] at hc
      simp only [List.mem_singleton] at hc
      subst hc
      exact digitChar_mem_digits n hn
    · rw [if_neg hn] at hc
      rcases List.mem_append.mp hc with h1 | h2
      · exact ih (n / 10) (Nat.div_lt_self (by omega) (by omega)) c h1
      · simp only [List.mem_singleton] at h2
        subst h2
        exact digitChar_mem_digits _ (Nat.mod_lt _ (by omega))

theorem natChars_no_underscore (n : Nat) : '_' ∉ natChars n := by
  intro h
  have := natChars_digits n '_' h
  simp at this

def digitsVal (l : List Char) : Nat :=
  l.foldl (fun a c => 10 * a + (c.toNat - 48)) 0

theorem digitChar_toNat (m : Nat) (h : m < 10) : (Nat.digitChar m).toNat = m + 48 := by
  revert m
  decide

theorem digitsVal_natChars (n : Nat) : digitsVal (natChars n) = n := by
  induction n using Nat.strong_induction_on with
  | _ n ih =>
    rw [natChars]
    by_cases hn : n < 10
    · rw [if_pos hn]
      simp [digitsVal, digitChar_toNat n hn]
    · rw [if_neg hn]
      have hrec := ih (n / 10) (Nat.div_lt_self (by omega) (by omega))
      have hd := digitChar_toNat (n % 10) (Nat.mod_lt _ (by omega))
      unfold digitsVal at hrec ⊢
      rw [List.foldl_append, hrec]
      simp [hd]
      omega

theorem natChars_inj {a b : Nat} (h : natChars a = natChars b) : a = b := by
  have ha := digitsVal_natChars a
  rw [h, digitsVal_natChars] at ha
  omega

theorem repr_inj {a b : Nat} (h : Nat.repr a = Nat.repr b) : a = b := by
  apply natChars_inj
  rw [← repr_data, ← repr_data, h]

theorem repr_no_underscore (n : Nat) : '_' ∉ (Nat.repr n).data := by
  rw [repr_data]
  exact natChars_no_underscore n

/-- Splitting a character list at the first underscore is unambiguous when the
part before the underscore contains no underscore. -/
theorem underscore_split :
    ∀ (a : List Char) (b x y : List Char), '_' ∉ a → '_' ∉ b →
      a ++ '_' :: x = b ++ '_' :: y → a = b ∧ x = y := by
  intro a
  induction a with
  | nil =>
    intro b x y _ hb h
    cases b with
    | nil => simpa using h
    | cons c b' =>
      simp only [List.nil_append, List.cons_append, List.cons.injEq] at h
      rw [← h.1] at hb
      simp at hb
  | cons c a' ih =>
    intro b x y ha hb h
    cases b with
    | nil =>
      simp only [List.cons_append, List.nil_append, List.cons.injEq] at h
      rw [h.1] at ha
      simp at ha
    | cons d b' =>
      simp only [List.cons_append, List.cons.injEq] at h
      obtain ⟨hcd, htail⟩ := h
      have := ih b' x y (fun hm => ha (List.mem_cons_of_mem c hm))
        (fun hm => hb (List.mem_cons_of_mem d hm)) htail
      exact ⟨by rw [hcd, this.1], this.2⟩

/-! ### Variable naming (classes `X`, `Y`, `Z` of the Turing-machine script and
`StartIndex` of the nonogram script)

`X.__str__` renders `"x_{i}_{q}"`, `Y.__str__` renders `"y_{i}_{k}"`,
`Z.__str__` renders `"z_{i}_{k}_{c}"`, and `StartIndex.__str__` renders
`"start_{vector_name}_{vector_number}_{index}"`. -/

def xName (step : Nat) (state : String) : String :=
  "x_" ++ Nat.repr step ++ "_" ++ state

def yName (step pos : Nat) : String :=
  "y_" ++ Nat.repr step ++ "_" ++ Nat.repr pos

def zName (step pos : Nat) (char : String) : String :=
  "z_" ++ Nat.repr step ++ "_" ++ Nat.repr pos ++ "_" ++ char

def startIndexName (vectorName : String) (vectorNumber index : Nat) : String :=
  "start_" ++ vectorName ++ "_" ++ Nat.repr vectorNumber ++ "_" ++ Nat.repr index

theorem string_eq_of_data (s t : String) (h : s.data = t.data) : s = t :=
  congrArg String.mk h

theorem data_of_string_eq (s t : String) (h : s = t) : s.data = t.data := by
  rw [h]

theorem xName_data (i : Nat) (q : String) :
    (xName i q).data = 'x' :: '_' :: (natChars i ++ '_' :: q.data) := by
  simp [xName, String.data_append, repr_data]

theorem yName_data (i k : Nat) :
    (yName i k).data = 'y' :: '_' :: (natChars i ++ '_' :: natChars k) := by
  simp [yName, String.data_append, repr_data]

theorem zName_data (i k : Nat) (c : String) :
    (zName i k c).data =
      'z' :: '_' :: (natChars i ++ '_' :: (natChars k ++ '_' :: c.data)) := by
  simp [zName, String.data_append, repr_data]

theorem startIndexName_data (vn : String) (a b : Nat) :
    (startIndexName vn a b).data =
      's' :: 't' :: 'a' :: 'r' :: 't' :: '_' ::
        (vn.data ++ '_' :: (natChars a ++ '_' :: natChars b)) := by
  simp [startIndexName, String.data_append, repr_data]

theorem xName_inj {i i' : Nat} {q q' : String}
    (h : xName i q = xName i' q') : i = i' ∧ q = q' := by
  have hd := data_of_string_eq _ _ h
  rw [xName_data, xName_data] at hd
  simp only [List.cons.injEq, true_and] at hd
  obtain ⟨h1, h2⟩ := underscore_split _ _ _ _
    (natChars_no_underscore i) (natChars_no_underscore i') hd
  exact ⟨natChars_inj h1, string_eq_of_data _ _ h2⟩

theorem yName_inj {i i' k k' : Nat}
    (h : yName i k = yName i' k') : i = i' ∧ k = k' := by
  have hd := data_of_string_eq _ _ h
  rw [yName_data, yName_data] at hd
  simp only [List.cons.injEq, true_and] at hd
  obtain ⟨h1, h2⟩ := underscore_split _ _ _ _
    (natChars_no_underscore i) (natChars_no_underscore i') hd
  exact ⟨natChars_inj h1, natChars_inj h2⟩

theorem zName_inj {i i' k k' : Nat} {c c' : String}
    (h : zName i k c = zName i' k' c') : i = i' ∧ k = k' ∧ c = c' := by
  have hd := data_of_string_eq _ _ h
  rw [zName_data, zName_data] at hd
  simp only [List.cons.injEq, true_and] at hd
  obtain ⟨h1, h2⟩ := underscore_split _ _ _ _
    (natChars_no_underscore i) (natChars_no_underscore i') hd
  obtain ⟨h3, h4⟩ := underscore_split _ _ _ _
    (natChars_no_underscore k) (natChars_no_underscore k') h2
  exact ⟨natChars_inj h1, natChars_inj h3, string_eq_of_data _ _ h4⟩

theorem startIndexName_inj {vn vn' : String} {a a' b b' : Nat}
    (hvn : '_' ∉ vn.data) (hvn' : '_' ∉ vn'.data)
    (h : startIndexName vn a b = startIndexName vn' a' b') :
    vn = vn' ∧ a = a' ∧ b = b' := by
  have hd := data_of_string_eq _ _ h
  rw [startIndexName_data, startIndexName_data] at hd
  simp only [List.cons.injEq, true_and] at hd
  obtain ⟨h1, h2⟩ := underscore_split _ _ _ _ hvn hvn' hd
  obtain ⟨h3, h4⟩ := underscore_split _ _ _ _
    (natChars_no_underscore a) (natChars_no_underscore a') h2
  exact ⟨string_eq_of_data _ _ h1, natChars_inj h3, natChars_inj h4⟩

theorem xName_ne_yName (i : Nat) (q : String) (i' k' : Nat) :
    xName i q ≠ yName i' k' := by
  intro h
  have hd := data_of_string_eq _ _ h
  rw [xName_data, yName_data] at hd
  simp at hd

theorem xName_ne_zName (i : Nat) (q : String) (i' k' : Nat) (c' : String) :
    xName i q ≠ zName i' k' c' := by
  intro h
  have hd := data_of_string_eq _ _ h
  rw [xName_data, zName_data] at hd
  simp at hd

theorem yName_ne_zName (i k : Nat) (i' k' : Nat) (c' : String) :
    yName i k ≠ zName i' k' c' := by
  intro h
  have hd := data_of_string_eq _ _ h
  rw [yName_data, zName_data] at hd
  simp at hd

theorem xName_ne_startIndexName (i : Nat) (q : String) (vn : String) (a b : Nat) :
    xName i q ≠ startIndexName vn a b := by
  intro h
  have hd := data_of_string_eq _ _ h
  rw [xName_data, startIndexName_data] at hd
  simp at hd

theorem yName_ne_startIndexName (i k : Nat) (vn : String) (a b : Nat) :
    yName i k ≠ startIndexName vn a b := by
  intro h
  have hd := data_of_string_eq _ _ h
  rw [yName_data, startIndexName_data] at hd
  simp at hd

theorem zName_ne_startIndexName (i k : Nat) (c : String) (vn : String) (a b : Nat) :
    zName i k c ≠ startIndexName vn a b := by
  intro h
  have hd := data_of_string_eq _ _ h
  rw [zName_data, startIndexName_data] at hd
  simp at hd

/-! ### Turing-machine acceptance encoding (`TMAcceptanceSAT`)

A Turing machine instance as constructed in `TMAcceptanceSAT.__init__`:
alphabet and state lists, the transition dictionary (modelled as a total
function, `dict.get` with default `[]`), initial and accepting states, and
the input word (a list of alphabet symbols).  A transition entry is
`(dstState, dstChar, direction)`. -/

structure TM where
  alphabet : List String
  states : List String
  transitions : String → String → List (String × String × Int)
  initState : String
  acceptingState : String
  word : List String

/-- Boolean formula trees as built by the script from z3 `Bool`, `And`, `Or`,
`Not` and `Implies`. -/
inductive BForm where
  | bvar : String → BForm
  | bnot : BForm → BForm
  | andL : List BForm → BForm
  | orL : List BForm → BForm
  | impl : BForm → BForm → BForm

mutual

def BForm.eval (v : String → Bool) : BForm → Bool
  | .bvar s => v s
  | .bnot φ => ! BForm.eval v φ
  | .andL l => BForm.evalAll v l
  | .orL l => BForm.evalAny v l
  | .impl φ ψ => ! BForm.eval v φ || BForm.eval v ψ

def BForm.evalAll (v : String → Bool) : List BForm → Bool
  | [] => true
  | φ :: l => BForm.eval v φ && BForm.evalAll v l

def BForm.evalAny (v : String → Bool) : List BForm → Bool
  | [] => false
  | φ :: l => BForm.eval v φ || BForm.evalAny v l

end

mutual

def BForm.vars : BForm → List String
  | .bvar s => [s]
  | .bnot φ => BForm.vars φ
  | .andL l => BForm.varsList l
  | .orL l => BForm.varsList l
  | .impl φ ψ => BForm.vars φ ++ BForm.vars ψ

def BForm.varsList : List BForm → List String
  | [] => []
  | φ :: l => BForm.vars φ ++ BForm.varsList l

end

theorem evalAll_eq_true (v : String → Bool) (l : List BForm) :
    BForm.evalAll v l = true ↔ ∀ φ ∈ l, BForm.eval v φ = true := by
  induction l with
  | nil => simp [BForm.evalAll]
  | cons φ l ih => simp [BForm.evalAll, ih]

theorem evalAny_eq_true (v : String → Bool) (l : List BForm) :
    BForm.evalAny v l = true ↔ ∃ φ ∈ l, BForm.eval v φ = true := by
  induction l with
  | nil => simp [BForm.evalAny]
  | cons φ l ih => simp [BForm.evalAny, ih]

theorem mem_varsList (s : String) (l : List BForm) :
    s ∈ BForm.varsList l ↔ ∃ φ ∈ l, s ∈ BForm.vars φ := by
  induction l with
  | nil => simp [BForm.varsList]
  | cons φ l ih => simp [BForm.varsList, ih]

/-- `TMAcceptanceSAT._formulasInitial`. -/
def formulasInitial (tm : TM) : List BForm :=
  [ .andL ([ .bvar (xName 0 tm.initState), .bvar (yName 0 0) ] ++
      (List.range tm.word.length).map fun pos =>
        .bvar (zName 0 pos (tm.word.getD pos ""))) ]

/-- `TMAcceptanceSAT._formulasNoMultipleStates`. -/
def formulasNoMultipleStates (tm : TM) : List BForm :=
  [ .andL ((List.range tm.word.length).flatMap fun step =>
      (List.range tm.states.length).flatMap fun q1 =>
        (List.range' (q1 + 1) (tm.states.length - (q1 + 1))).map fun q2 =>
          .bnot (.andL [ .bvar (xName step (tm.states.getD q1 "")),
                         .bvar (xName step (tm.states.getD q2 "")) ])) ]

/-- `TMAcceptanceSAT._formulasNoMultipleHeadPositions`. -/
def formulasNoMultipleHeadPositions (tm : TM) : List BForm :=
  [ .andL ((List.range tm.word.length).flatMap fun step =>
      (List.range tm.word.length).flatMap fun pos1 =>
        (List.range' (pos1 + 1) (tm.word.length - (pos1 + 1))).map fun pos2 =>
          .bnot (.andL [ .bvar (yName step pos1), .bvar (yName step pos2) ])) ]

/-- `TMAcceptanceSAT._formulasNoMultipleCharacters`. -/
def formulasNoMultipleCharacters (tm : TM) : List BForm :=
  [ .andL ((List.range tm.word.length).flatMap fun step =>
      (List.range tm.word.length).flatMap fun pos =>
        (List.range tm.alphabet.length).flatMap fun char1 =>
          (List.range' (char1 + 1) (tm.alphabet.length - (char1 + 1))).map fun char2 =>
            .bnot (.andL [ .bvar (zName step pos (tm.alphabet.getD char1 "")),
                           .bvar (zName step pos (tm.alphabet.getD char2 "")) ])) ]

/-- `TMAcceptanceSAT._formulasNonHeadCharsNonModifiable`. -/
def formulasNonHeadCharsNonModifiable (tm : TM) : List BForm :=
  [ .andL ((List.range (tm.word.length - 1)).flatMap fun step =>
      (List.range tm.word.length).flatMap fun pos =>
        tm.alphabet.map fun char =>
          .impl (.andL [ .bnot (.bvar (yName step pos)),
                         .bvar (zName step pos char) ])
                (.bvar (zName (step + 1) pos char))) ]

/-- The consequent disjunct list of `TMAcceptanceSAT._formulasValidTransitions`:
one conjunction per transition whose destination head position stays on the
cells of the input word. -/
def validTransConsequent (tm : TM) (step pos : Nat) (state char : String) : List BForm :=
  (tm.transitions state char).filterMap fun t =>
    if 0 ≤ (pos : Int) + t.2.2 ∧ (pos : Int) + t.2.2 < (tm.word.length : Int) then
      some (.andL [ .bvar (xName (step + 1) t.1),
                    .bvar (yName (step + 1) ((pos : Int) + t.2.2).toNat),
                    .bvar (zName (step + 1) pos t.2.1) ])
    else none

/-- `TMAcceptanceSAT._formulasValidTransitions`.  An implication is emitted
only when the consequent disjunct list is non-empty. -/
def formulasValidTransitions (tm : TM) : List BForm :=
  [ .andL ((List.range (tm.word.length - 1)).flatMap fun step =>
      (List.range tm.word.length).flatMap fun pos =>
        tm.states.flatMap fun state =>
          tm.alphabet.flatMap fun char =>
            if (validTransConsequent tm step pos state char).length > 0 then
              [ .impl (.andL [ .bvar (xName step state),
                               .bvar (yName step pos),
                               .bvar (zName step pos char) ])
                      (.orL (validTransConsequent tm step pos state char)) ]
            else []) ]

/-- `TMAcceptanceSAT._formulasReachAcceptingState`. -/
def formulasReachAcceptingState (tm : TM) : List BForm :=
  [ .orL ((List.range tm.word.length).map fun step =>
      .bvar (xName step tm.acceptingState)) ]

/-- `TMAcceptanceSAT.generateSAT`: the conjunction of all seven constraint
families, in the order of the `conditions` list. -/
def generateSAT (tm : TM) : BForm :=
  .andL (formulasInitial tm ++ formulasNoMultipleStates tm ++
         formulasReachAcceptingState tm ++ formulasNoMultipleCharacters tm ++
         formulasNoMultipleHeadPositions tm ++ formulasValidTransitions tm ++
         formulasNonHeadCharsNonModifiable tm)

/-! ### Solving and decoding (`solveSAT`, `decodeSATOutput`, `__main__`)

The z3 solver is abstracted as an oracle from formulas to results.  The
valuation returned by `solveSAT` is a finite map from variable names to
Booleans, modelled as an association list; `valuation[k]` on a missing key is
Python's `KeyError`, and out-of-range list indexing is `IndexError` — both
are modelled by propagating `none`. -/

inductive SatResult where
  | unsat : SatResult
  | sat : List (String × Bool) → SatResult

/-- `TMAcceptanceSAT.solveSAT`: an empty valuation when the solver reports
unsatisfiable, otherwise the solver model as a name-to-Boolean map. -/
def solveSAT (solver : BForm → SatResult) (φ : BForm) : List (String × Bool) :=
  match solver φ with
  | .unsat => []
  | .sat m => m

/-- One inner search loop of `decodeSATOutput`: walk the names in order,
look each up in the valuation (missing key: `none`), and return the payload
attached to the first name with value true (`some (some a)`), or `some none`
when the loop finishes without a hit. -/
def findTrue {α : Type} (v : List (String × Bool)) :
    List (String × α) → Option (Option α)
  | [] => some none
  | (nm, a) :: rest =>
    match v.lookup nm with
    | none => none
    | some true => some (some a)
    | some false => findTrue v rest

/-- The tape-content collection of one step of `decodeSATOutput`: for each
cell, the first alphabet character whose `Z` variable is true, skipping cells
where none is found. -/
def scanTapeStep (tm : TM) (v : List (String × Bool)) (step : Nat) :
    Option (List (Nat × String)) :=
  (List.range tm.word.length).foldlM (fun acc pos =>
    (findTrue v (tm.alphabet.map fun c => (zName step pos c, c))).map fun r =>
      match r with
      | some c => acc ++ [(pos, c)]
      | none => acc) []

/-- The main loop of `decodeSATOutput` over the steps, accumulating
`stateHistory`, `headPositionHistory` and `tapeHistory`, breaking after the
first step whose recorded state is the accepting state; reading
`stateHistory[-1]` while `stateHistory` is empty is an `IndexError`. -/
def decodeSteps (tm : TM) (v : List (String × Bool)) :
    List Nat → List String × List Nat × List (List (Nat × String)) →
    Option (List String × List Nat × List (List (Nat × String)))
  | [], h => some h
  | step :: rest, (sh, hh, th) => do
    let so ← findTrue v (tm.states.map fun q => (xName step q, q))
    let sh2 := match so with | some q => sh ++ [q] | none => sh
    let ho ← findTrue v ((List.range tm.word.length).map fun k => (yName step k, k))
    let hh2 := match ho with | some k => hh ++ [k] | none => hh
    let trow ← scanTapeStep tm v step
    let th2 := th ++ [trow]
    let q ← sh2.getLast?
    if q = tm.acceptingState then some (sh2, hh2, th2)
    else decodeSteps tm v rest (sh2, hh2, th2)

/-- One iteration of the output-formatting loop of `decodeSATOutput`: render
the configuration recorded for `step` as the tape cells (`c + '| '`), place
the state string at the recorded head position
(`tapeContent[hp][:-1] + state`), and join with spaces. -/
def formatStep (sh : List String) (hh : List Nat)
    (th : List (List (Nat × String))) (acc : List String) (step : Nat) :
    Option (List String) :=
  match th.get? step, sh.get? step, hh.get? step with
  | some trow, some q, some hp =>
    match (trow.map fun p => p.2 ++ "| ").get? hp with
    | some cell =>
      some (acc ++ [String.intercalate " "
        ((trow.map fun p => p.2 ++ "| ").set hp (cell.dropRight 1 ++ q))])
    | none => none
  | _, _, _ => none

/-- The output-formatting loop of `decodeSATOutput`. -/
def formatHistory (sh : List String) (hh : List Nat)
    (th : List (List (Nat × String))) : Option (List String) :=
  (List.range sh.length).foldlM (formatStep sh hh th) []

/-- `TMAcceptanceSAT.decodeSATOutput`. -/
def decodeSATOutput (tm : TM) (valuation : List (String × Bool)) :
    Option (List String) :=
  if valuation.length = 0 then some []
  else
    match decodeSteps tm valuation (List.range tm.word.length) ([], [], []) with
    | none => none
    | some (sh, hh, th) => formatHistory sh hh th

/-- The printed lines of the `__main__` block, given the valuation returned by
`solveSAT`: the single line `NO` when the decoded history is empty, otherwise
the `print("YES\n")` output followed by one line per configuration. -/
def mainOutput (tm : TM) (valuation : List (String × Bool)) :
    Option (List String) :=
  match decodeSATOutput tm valuation with
  | none => none
  | some [] => some ["NO"]
  | some history => some ("YES\n" :: history)

/-! ### Specification side: valid accepting runs of a Turing machine

The spec describes the encoding as "representing a bounded-length computation
history ... constrained so that valid assignments correspond exactly to valid
accepting runs", where the machine "operates only on the cells occupied by the
initial input word" and "makes at most |w| steps".  The following definitions
formalise those words. -/

structure Config where
  state : String
  head : Nat
  tape : List String

/-- The initial configuration on the input word. -/
def TM.initConfig (tm : TM) : Config :=
  { state := tm.initState, head := 0, tape := tm.word }

/-- A configuration stays on the cells initially occupied by the word. -/
def TM.InBounds (tm : TM) (c : Config) : Prop :=
  c.head < tm.word.length ∧ c.tape.length = tm.word.length

/-- One valid machine step that keeps the head on the cells of the word:
some transition for the current state and scanned character is taken, the
state changes accordingly, the head moves by the transition's direction, and
the scanned cell is overwritten. -/
def TM.Step (tm : TM) (c c' : Config) : Prop :=
  ∃ t ∈ tm.transitions c.state (c.tape.getD c.head ""),
    c'.state = t.1 ∧ (c.head : Int) + t.2.2 = (c'.head : Int) ∧
    c'.head < tm.word.length ∧ c'.tape = c.tape.set c.head t.2.1

/-- The machine has a valid accepting run on its word: a chain of valid
steps from the initial configuration, staying on the cells of the word,
visiting at most `k` configurations, and ending in the accepting state. -/
def TM.AcceptsWithin (tm : TM) (k : Nat) : Prop :=
  ∃ cs : List Config, cs ≠ [] ∧ cs.head? = some tm.initConfig ∧
    List.Chain' tm.Step cs ∧ cs.length ≤ k ∧
    (∀ c ∈ cs, tm.InBounds c) ∧
    ∃ clast, cs.getLast? = some clast ∧ clast.state = tm.acceptingState

/-! ### Claim C6: injectivity of the variable-naming scheme -/

/-- C6: the variable-naming scheme is injective: for nonnegative integer
steps, positions and indices, and vector names `row` and `col`, distinct
domain tuples produce distinct variable-name strings within each of the four
classes `X`, `Y`, `Z`, `StartIndex`, and names from different classes are
always distinct. -/
theorem claim_C6_naming_injective :
    (∀ i q i' q', xName i q = xName i' q' → i = i' ∧ q = q') ∧
    (∀ i k i' k', yName i k = yName i' k' → i = i' ∧ k = k') ∧
    (∀ i k c i' k' c', zName i k c = zName i' k' c' → i = i' ∧ k = k' ∧ c = c') ∧
    (∀ vn vn' a b a' b', vn ∈ (["row", "col"] : List String) →
      vn' ∈ (["row", "col"] : List String) →
      startIndexName vn a b = startIndexName vn' a' b' →
      vn = vn' ∧ a = a' ∧ b = b') ∧
    (∀ i q i' k', xName i q ≠ yName i' k') ∧
    (∀ i q i' k' c', xName i q ≠ zName i' k' c') ∧
    (∀ i q vn a b, xName i q ≠ startIndexName vn a b) ∧
    (∀ i k i' k' c', yName i k ≠ zName i' k' c') ∧
    (∀ i k vn a b, yName i k ≠ startIndexName vn a b) ∧
    (∀ i k c vn a b, zName i k c ≠ startIndexName vn a b) := by
  refine ⟨?_, ?_, ?_, ?_, ?_, ?_, ?_, ?_, ?_, ?_⟩
  · intro i q i' q' h
    exact xName_inj h
  · intro i k i' k' h
    exact yName_inj h
  · intro i k c i' k' c' h
    exact zName_inj h
  · intro vn vn' a b a' b' hvn hvn' h
    have hvn2 : vn = "row" ∨ vn = "col" := by simpa using hvn
    have hvn2' : vn' = "row" ∨ vn' = "col" := by simpa using hvn'
    have h1 : '_' ∉ vn.data := by
      rcases hvn2 with h' | h' <;> (subst h'; decide)
    have h2 : '_' ∉ vn'.data := by
      rcases hvn2' with h' | h' <;> (subst h'; decide)
    exact startIndexName_inj h1 h2 h
  · intro i q i' k'
    exact xName_ne_yName i q i' k'
  · intro i q i' k' c'
    exact xName_ne_zName i q i' k' c'
  · intro i q vn a b
    exact xName_ne_startIndexName i q vn a b
  · intro i k i' k' c'
    exact yName_ne_zName i k i' k' c'
  · intro i k vn a b
    exact yName_ne_startIndexName i k vn a b
  · intro i k c vn a b
    exact zName_ne_startIndexName i k c vn a b

theorem claim_C6_naming_injective_witness :
    "row" ∈ (["row", "col"] : List String) ∧
    ("row" = "row" ∧ 12 = 12 ∧ 3 = 3) :=
  ⟨by decide,
   claim_C6_naming_injective.2.2.2.1 "row" "row" 12 3 12 3
     (by decide) (by decide) rfl⟩

/-! ### Claim C5: shape of the variables occurring in `generateSAT` -/

theorem varsList_append (a b : List BForm) :
    BForm.varsList (a ++ b) = BForm.varsList a ++ BForm.varsList b := by
  induction a with
  | nil => simp [BForm.varsList]
  | cons φ l ih => simp [BForm.varsList, ih]

/-- C5 (amended): for a well-formed machine — initial and accepting states
among the states, transition destinations among the states and alphabet, word
characters among the alphabet — and a NON-EMPTY input word, every variable of
the generated formula is an `X(i, q)` with `q` a machine state, a `Y(i, k)`,
or a `Z(i, k, c)` with `c` an alphabet character, where `i` and `k` are below
`|w|`.  (The original claim fails for the empty word: `generateSAT` still
emits `X(0, init)` and `Y(0, 0)`.) -/
theorem claim_C5_generated_variable_shapes (tm : TM)
    (hw : tm.word ≠ [])
    (hinit : tm.initState ∈ tm.states)
    (hacc : tm.acceptingState ∈ tm.states)
    (hword : ∀ c ∈ tm.word, c ∈ tm.alphabet)
    (htrans : ∀ q c t, t ∈ tm.transitions q c → t.1 ∈ tm.states ∧ t.2.1 ∈ tm.alphabet) :
    ∀ s ∈ BForm.vars (generateSAT tm),
      (∃ i q, i < tm.word.length ∧ q ∈ tm.states ∧ s = xName i q) ∨
      (∃ i k, i < tm.word.length ∧ k < tm.word.length ∧ s = yName i k) ∨
      (∃ i k c, i < tm.word.length ∧ k < tm.word.length ∧ c ∈ tm.alphabet ∧
        s = zName i k c) := by
  intro s hs
  have hn : 0 < tm.word.length := List.length_pos.mpr hw
  simp only [generateSAT, BForm.vars] at hs
  rw [mem_varsList] at hs
  obtain ⟨φ, hφ, hsv⟩ := hs
  simp only [formulasInitial, formulasNoMultipleStates, formulasReachAcceptingState,
    formulasNoMultipleCharacters, formulasNoMultipleHeadPositions,
    formulasValidTransitions, formulasNonHeadCharsNonModifiable,
    List.singleton_append, List.cons_append, List.nil_append,
    List.mem_cons, List.mem_singleton, List.not_mem_nil, or_false] at hφ
  rcases hφ with h | h | h | h | h | h | h
  · -- formulasInitial
    subst h
    simp only [BForm.vars] at hsv
    rw [mem_varsList] at hsv
    obtain ⟨ψ, hψ, hsψ⟩ := hsv
    simp only [List.cons_append, List.nil_append, List.mem_cons, List.mem_map,
      List.mem_range] at hψ
    rcases hψ with h1 | h1 | ⟨pos, hpos, h1⟩ <;> subst h1 <;>
      simp only [BForm.vars, List.mem_singleton] at hsψ <;> subst hsψ
    · exact Or.inl ⟨0, tm.initState, hn, hinit, rfl⟩
    · exact Or.inr (Or.inl ⟨0, 0, hn, hn, rfl⟩)
    · refine Or.inr (Or.inr ⟨0, pos, tm.word.getD pos "", hn, hpos, ?_, rfl⟩)
      rw [List.getD_eq_getElem tm.word "" hpos]
      exact hword _ (List.getElem_mem hpos)
  · -- formulasNoMultipleStates
    subst h
    simp only [BForm.vars] at hsv
    rw [mem_varsList] at hsv
    obtain ⟨ψ, hψ, hsψ⟩ := hsv
    simp only [List.mem_flatMap, List.mem_map, List.mem_range, List.mem_range'] at hψ
    obtain ⟨step, hstep, q1, hq1, q2, hq2, h1⟩ := hψ
    subst h1
    simp only [BForm.vars, BForm.varsList, List.mem_cons, List.mem_append,
      List.mem_singleton, List.not_mem_nil, or_false] at hsψ
    have hq2' : q2 < tm.states.length := by omega
    rcases hsψ with h1 | h1 <;> subst h1
    · refine Or.inl ⟨step, _, hstep, ?_, rfl⟩
      rw [List.getD_eq_getElem tm.states "" hq1]
      exact List.getElem_mem hq1
    · refine Or.inl ⟨step, _, hstep, ?_, rfl⟩
      rw [List.getD_eq_getElem tm.states "" hq2']
      exact List.getElem_mem hq2'
  · -- formulasReachAcceptingState
    subst h
    simp only [BForm.vars] at hsv
    rw [mem_varsList] at hsv
    obtain ⟨ψ, hψ, hsψ⟩ := hsv
    simp only [List.mem_map, List.mem_range] at hψ
    obtain ⟨step, hstep, h1⟩ := hψ
    subst h1
    simp only [BForm.vars, List.mem_singleton] at hsψ
    subst hsψ
    exact Or.inl ⟨step, tm.acceptingState, hstep, hacc, rfl⟩
  · -- formulasNoMultipleCharacters
    subst h
    simp only [BForm.vars] at hsv
    rw [mem_varsList] at hsv
    obtain ⟨ψ, hψ, hsψ⟩ := hsv
    simp only [List.mem_flatMap, List.mem_map, List.mem_range, List.mem_range'] at hψ
    obtain ⟨step, hstep, pos, hpos, c1, hc1, c2, hc2, h1⟩ := hψ
    subst h1
    simp only [BForm.vars, BForm.varsList, List.mem_cons, List.mem_append,
      List.mem_singleton, List.not_mem_nil, or_false] at hsψ
    have hc2' : c2 < tm.alphabet.length := by omega
    rcases hsψ with h1 | h1 <;> subst h1
    · refine Or.inr (Or.inr ⟨step, pos, _, hstep, hpos, ?_, rfl⟩)
      rw [List.getD_eq_getElem tm.alphabet "" hc1]
      exact List.getElem_mem hc1
    · refine Or.inr (Or.inr ⟨step, pos, _, hstep, hpos, ?_, rfl⟩)
      rw [List.getD_eq_getElem tm.alphabet "" hc2']
      exact List.getElem_mem hc2'
  · -- formulasNoMultipleHeadPositions
    subst h
    simp only [BForm.vars] at hsv
    rw [mem_varsList] at hsv
    obtain ⟨ψ, hψ, hsψ⟩ := hsv
    simp only [List.mem_flatMap, List.mem_map, List.mem_range, List.mem_range'] at hψ
    obtain ⟨step, hstep, p1, hp1, p2, hp2, h1⟩ := hψ
    subst h1
    simp only [BForm.vars, BForm.varsList, List.mem_cons, List.mem_append,
      List.mem_singleton, List.not_mem_nil, or_false] at hsψ
    have hp2' : p2 < tm.word.length := by omega
    rcases hsψ with h1 | h1 <;> subst h1
    · exact Or.inr (Or.inl ⟨step, p1, hstep, hp1, rfl⟩)
    · exact Or.inr (Or.inl ⟨step, p2, hstep, hp2', rfl⟩)
  · -- formulasValidTransitions
    subst h
    simp only [BForm.vars] at hsv
    rw [mem_varsList] at hsv
    obtain ⟨ψ, hψ, hsψ⟩ := hsv
    simp only [List.mem_flatMap, List.mem_range] at hψ
    obtain ⟨step, hstep, pos, hpos, state, hstate, char, hchar, hin⟩ := hψ
    have hstep' : step + 1 < tm.word.length := by omega
    by_cases hlen : (validTransConsequent tm step pos state char).length > 0
    · rw [if_pos hlen, List.mem_singleton] at hin
      subst hin
      simp only [BForm.vars] at hsψ
      rw [List.mem_append] at hsψ
      rcases hsψ with h1 | h1
      · simp only [BForm.vars, BForm.varsList, List.mem_cons, List.mem_append,
          List.mem_singleton, List.not_mem_nil, or_false] at h1
        rcases h1 with h2 | h2 | h2 <;> subst h2
        · exact Or.inl ⟨step, state, by omega, hstate, rfl⟩
        · exact Or.inr (Or.inl ⟨step, pos, by omega, hpos, rfl⟩)
        · exact Or.inr (Or.inr ⟨step, pos, char, by omega, hpos, hchar, rfl⟩)
      · rw [mem_varsList] at h1
        obtain ⟨ξ, hξ, hsξ⟩ := h1
        simp only [validTransConsequent, List.mem_filterMap] at hξ
        obtain ⟨t, ht, hsome⟩ := hξ
        by_cases hg : 0 ≤ (pos : Int) + t.2.2 ∧ (pos : Int) + t.2.2 < (tm.word.length : Int)
        · rw [if_pos hg, Option.some_inj] at hsome
          subst hsome
          simp only [BForm.vars, BForm.varsList, List.mem_cons, List.mem_append,
            List.mem_singleton, List.not_mem_nil, or_false] at hsξ
          rcases hsξ with h2 | h2 | h2 <;> subst h2
          · exact Or.inl ⟨step + 1, t.1, hstep', (htrans state char t ht).1, rfl⟩
          · refine Or.inr (Or.inl ⟨step + 1, ((pos : Int) + t.2.2).toNat, hstep', ?_, rfl⟩)
            omega
          · exact Or.inr (Or.inr ⟨step + 1, pos, t.2.1, hstep', hpos,
              (htrans state char t ht).2, rfl⟩)
        · rw [if_neg hg] at hsome
          cases hsome
    · rw [if_neg hlen] at hin
      cases hin
  · -- formulasNonHeadCharsNonModifiable
    subst h
    simp only [BForm.vars] at hsv
    rw [mem_varsList] at hsv
    obtain ⟨ψ, hψ, hsψ⟩ := hsv
    simp only [List.mem_flatMap, List.mem_map, List.mem_range] at hψ
    obtain ⟨step, hstep, pos, hpos, char, hchar, h1⟩ := hψ
    subst h1
    simp only [BForm.vars, BForm.varsList, List.mem_cons, List.mem_append,
      List.mem_singleton, List.not_mem_nil, or_false] at hsψ
    rcases hsψ with (h1 | h1) | h1 <;> subst h1
    · exact Or.inr (Or.inl ⟨step, pos, by omega, hpos, rfl⟩)
    · exact Or.inr (Or.inr ⟨step, pos, char, by omega, hpos, hchar, rfl⟩)
    · exact Or.inr (Or.inr ⟨step + 1, pos, char, by omega, hpos, hchar, rfl⟩)

/-- The machine used to refute the original claim C5: a well-formed machine
whose input word is empty. -/
def tmEmptyWord : TM :=
  { alphabet := ["a"], states := ["A"], transitions := fun _ _ => [],
    initState := "A", acceptingState := "A", word := [] }

/-- C5 counterexample: for the empty input word, the variable `X(0, init)`
occurs in the generated formula, yet no variable of the three classes with
step and position indices below `|w| = 0` exists, so the claim as stated
fails. -/
theorem claim_C5_counterexample :
    xName 0 "A" ∈ BForm.vars (generateSAT tmEmptyWord) ∧
    ¬ ((∃ i q, i < tmEmptyWord.word.length ∧ q ∈ tmEmptyWord.states ∧
          xName 0 "A" = xName i q) ∨
       (∃ i k, i < tmEmptyWord.word.length ∧ k < tmEmptyWord.word.length ∧
          xName 0 "A" = yName i k) ∨
       (∃ i k c, i < tmEmptyWord.word.length ∧ k < tmEmptyWord.word.length ∧
          c ∈ tmEmptyWord.alphabet ∧ xName 0 "A" = zName i k c)) := by
  constructor
  · decide
  · intro h
    rcases h with ⟨i, q, hi, _⟩ | ⟨i, k, hi, _⟩ | ⟨i, k, c, hi, _⟩ <;>
      simp [tmEmptyWord] at hi

/-- Witness machine for C5: accepts the one-letter word `a` immediately. -/
def tmTiny : TM :=
  { alphabet := ["a"], states := ["A"], transitions := fun _ _ => [],
    initState := "A", acceptingState := "A", word := ["a"] }

theorem claim_C5_generated_variable_shapes_witness :
    (tmTiny.word ≠ [] ∧ tmTiny.initState ∈ tmTiny.states ∧
     tmTiny.acceptingState ∈ tmTiny.states ∧
     (∀ c ∈ tmTiny.word, c ∈ tmTiny.alphabet) ∧
     (∀ q c t, t ∈ tmTiny.transitions q c →
        t.1 ∈ tmTiny.states ∧ t.2.1 ∈ tmTiny.alphabet) ∧
     xName 0 "A" ∈ BForm.vars (generateSAT tmTiny)) ∧
    ((∃ i q, i < tmTiny.word.length ∧ q ∈ tmTiny.states ∧ xName 0 "A" = xName i q) ∨
     (∃ i k, i < tmTiny.word.length ∧ k < tmTiny.word.length ∧
        xName 0 "A" = yName i k) ∨
     (∃ i k c, i < tmTiny.word.length ∧ k < tmTiny.word.length ∧
        c ∈ tmTiny.alphabet ∧ xName 0 "A" = zName i k c)) := by
  have h1 : tmTiny.word ≠ [] := by simp [tmTiny]
  have h2 : tmTiny.initState ∈ tmTiny.states := by decide
  have h3 : tmTiny.acceptingState ∈ tmTiny.states := by decide
  have h4 : ∀ c ∈ tmTiny.word, c ∈ tmTiny.alphabet := by decide
  have h5 : ∀ q c t, t ∈ tmTiny.transitions q c →
      t.1 ∈ tmTiny.states ∧ t.2.1 ∈ tmTiny.alphabet := by
    intro q c t ht
    simp [tmTiny] at ht
  have h6 : xName 0 "A" ∈ BForm.vars (generateSAT tmTiny) := by decide
  exact ⟨⟨h1, h2, h3, h4, h5, h6⟩,
    claim_C5_generated_variable_shapes tmTiny h1 h2 h3 h4 h5 (xName 0 "A") h6⟩

/-! ### Claim C9: at-most-one state, head position and cell character -/

/-- Every conjunct family of `generateSAT` evaluates to true under a
satisfying assignment. -/
theorem eval_family (tm : TM) (v : String → Bool)
    (hsat : BForm.eval v (generateSAT tm) = true) :
    ∀ φ, (φ ∈ formulasInitial tm ∨ φ ∈ formulasNoMultipleStates tm ∨
      φ ∈ formulasReachAcceptingState tm ∨ φ ∈ formulasNoMultipleCharacters tm ∨
      φ ∈ formulasNoMultipleHeadPositions tm ∨ φ ∈ formulasValidTransitions tm ∨
      φ ∈ formulasNonHeadCharsNonModifiable tm) →
    BForm.eval v φ = true := by
  intro φ hφ
  rw [generateSAT] at hsat
  rw [show BForm.eval v (.andL (formulasInitial tm ++ formulasNoMultipleStates tm ++
      formulasReachAcceptingState tm ++ formulasNoMultipleCharacters tm ++
      formulasNoMultipleHeadPositions tm ++ formulasValidTransitions tm ++
      formulasNonHeadCharsNonModifiable tm)) = BForm.evalAll v _ from rfl,
    evalAll_eq_true] at hsat
  apply hsat
  simp only [List.mem_append]
  tauto

theorem noMultipleStates_pair (tm : TM) (v : String → Bool)
    (hsat : BForm.eval v (generateSAT tm) = true)
    (i : Nat) (hi : i < tm.word.length) (j1 j2 : Nat)
    (hj2 : j2 < tm.states.length) (hlt : j1 < j2) :
    ¬ (v (xName i (tm.states.getD j1 "")) = true ∧
       v (xName i (tm.states.getD j2 "")) = true) := by
  have hfam := eval_family tm v hsat (.andL ((List.range tm.word.length).flatMap fun step =>
      (List.range tm.states.length).flatMap fun q1 =>
        (List.range' (q1 + 1) (tm.states.length - (q1 + 1))).map fun q2 =>
          .bnot (.andL [ .bvar (xName step (tm.states.getD q1 "")),
                         .bvar (xName step (tm.states.getD q2 "")) ])))
    (Or.inr (Or.inl (by simp [formulasNoMultipleStates])))
  rw [show BForm.eval v (.andL _) = BForm.evalAll v _ from rfl, evalAll_eq_true] at hfam
  have hmem := hfam (.bnot (.andL [ .bvar (xName i (tm.states.getD j1 "")),
      .bvar (xName i (tm.states.getD j2 "")) ]))
    (by
      simp only [List.mem_flatMap, List.mem_map, List.mem_range, List.mem_range'_1]
      exact ⟨i, hi, j1, by omega, j2, by omega, rfl⟩)
  simp only [BForm.eval, BForm.evalAll, Bool.and_true, Bool.not_eq_eq_eq_not,
    Bool.not_true, Bool.and_eq_false_iff] at hmem
  intro hboth
  rw [hboth.1, hboth.2] at hmem
  simp at hmem

theorem noMultipleHeads_pair (tm : TM) (v : String → Bool)
    (hsat : BForm.eval v (generateSAT tm) = true)
    (i : Nat) (hi : i < tm.word.length) (k1 k2 : Nat)
    (hk2 : k2 < tm.word.length) (hlt : k1 < k2) :
    ¬ (v (yName i k1) = true ∧ v (yName i k2) = true) := by
  have hfam := eval_family tm v hsat (.andL ((List.range tm.word.length).flatMap fun step =>
      (List.range tm.word.length).flatMap fun pos1 =>
        (List.range' (pos1 + 1) (tm.word.length - (pos1 + 1))).map fun pos2 =>
          .bnot (.andL [ .bvar (yName step pos1), .bvar (yName step pos2) ])))
    (Or.inr (Or.inr (Or.inr (Or.inr (Or.inl (by simp [formulasNoMultipleHeadPositions]))))))
  rw [show BForm.eval v (.andL _) = BForm.evalAll v _ from rfl, evalAll_eq_true] at hfam
  have hmem := hfam (.bnot (.andL [ .bvar (yName i k1), .bvar (yName i k2) ]))
    (by
      simp only [List.mem_flatMap, List.mem_map, List.mem_range, List.mem_range'_1]
      exact ⟨i, hi, k1, by omega, k2, by omega, rfl⟩)
  simp only [BForm.eval, BForm.evalAll, Bool.and_true, Bool.not_eq_eq_eq_not,
    Bool.not_true, Bool.and_eq_false_iff] at hmem
  intro hboth
  rw [hboth.1, hboth.2] at hmem
  simp at hmem

theorem noMultipleChars_pair (tm : TM) (v : String → Bool)
    (hsat : BForm.eval v (generateSAT tm) = true)
    (i : Nat) (hi : i < tm.word.length) (k : Nat) (hk : k < tm.word.length)
    (j1 j2 : Nat) (hj2 : j2 < tm.alphabet.length) (hlt : j1 < j2) :
    ¬ (v (zName i k (tm.alphabet.getD j1 "")) = true ∧
       v (zName i k (tm.alphabet.getD j2 "")) = true) := by
  have hfam := eval_family tm v hsat (.andL ((List.range tm.word.length).flatMap fun step =>
      (List.range tm.word.length).flatMap fun pos =>
        (List.range tm.alphabet.length).flatMap fun char1 =>
          (List.range' (char1 + 1) (tm.alphabet.length - (char1 + 1))).map fun char2 =>
            .bnot (.andL [ .bvar (zName step pos (tm.alphabet.getD char1 "")),
                           .bvar (zName step pos (tm.alphabet.getD char2 "")) ])))
    (Or.inr (Or.inr (Or.inr (Or.inl (by simp [formulasNoMultipleCharacters])))))
  rw [show BForm.eval v (.andL _) = BForm.evalAll v _ from rfl, evalAll_eq_true] at hfam
  have hmem := hfam (.bnot (.andL [ .bvar (zName i k (tm.alphabet.getD j1 "")),
      .bvar (zName i k (tm.alphabet.getD j2 "")) ]))
    (by
      simp only [List.mem_flatMap, List.mem_map, List.mem_range, List.mem_range'_1]
      exact ⟨i, hi, k, hk, j1, by omega, j2, by omega, rfl⟩)
  simp only [BForm.eval, BForm.evalAll, Bool.and_true, Bool.not_eq_eq_eq_not,
    Bool.not_true, Bool.and_eq_false_iff] at hmem
  intro hboth
  rw [hboth.1, hboth.2] at hmem
  simp at hmem

/-- C9: in every satisfying assignment of the generated formula, at every
step below `|w|` at most one state variable is true, at most one
head-position variable with position below `|w|` is true, and for every cell
below `|w|` at most one character variable is true. -/
theorem claim_C9_at_most_one (tm : TM) (v : String → Bool)
    (hsat : BForm.eval v (generateSAT tm) = true) :
    ∀ i < tm.word.length,
      (∀ q1 ∈ tm.states, ∀ q2 ∈ tm.states, q1 ≠ q2 →
        ¬ (v (xName i q1) = true ∧ v (xName i q2) = true)) ∧
      (∀ k1 < tm.word.length, ∀ k2 < tm.word.length, k1 ≠ k2 →
        ¬ (v (yName i k1) = true ∧ v (yName i k2) = true)) ∧
      (∀ k < tm.word.length, ∀ c1 ∈ tm.alphabet, ∀ c2 ∈ tm.alphabet, c1 ≠ c2 →
        ¬ (v (zName i k c1) = true ∧ v (zName i k c2) = true)) := by
  intro i hi
  refine ⟨?_, ?_, ?_⟩
  · intro q1 hq1 q2 hq2 hne hboth
    obtain ⟨j1, hj1, e1⟩ := List.mem_iff_getElem.mp hq1
    obtain ⟨j2, hj2, e2⟩ := List.mem_iff_getElem.mp hq2
    have hjne : j1 ≠ j2 := by
      intro hj
      subst hj
      exact hne (e1.symm.trans e2)
    have g1 : tm.states.getD j1 "" = q1 := by rw [List.getD_eq_getElem _ _ hj1, e1]
    have g2 : tm.states.getD j2 "" = q2 := by rw [List.getD_eq_getElem _ _ hj2, e2]
    rcases Nat.lt_or_ge j1 j2 with hlt | hge
    · exact noMultipleStates_pair tm v hsat i hi j1 j2 hj2 hlt (by rw [g1, g2]; exact hboth)
    · have hlt : j2 < j1 := by omega
      exact noMultipleStates_pair tm v hsat i hi j2 j1 hj1 hlt
        (by rw [g1, g2]; exact ⟨hboth.2, hboth.1⟩)
  · intro k1 hk1 k2 hk2 hne hboth
    rcases Nat.lt_or_ge k1 k2 with hlt | hge
    · exact noMultipleHeads_pair tm v hsat i hi k1 k2 hk2 hlt hboth
    · have hlt : k2 < k1 := by omega
      exact noMultipleHeads_pair tm v hsat i hi k2 k1 hk1 hlt ⟨hboth.2, hboth.1⟩
  · intro k hk c1 hc1 c2 hc2 hne hboth
    obtain ⟨j1, hj1, e1⟩ := List.mem_iff_getElem.mp hc1
    obtain ⟨j2, hj2, e2⟩ := List.mem_iff_getElem.mp hc2
    have hjne : j1 ≠ j2 := by
      intro hj
      subst hj
      exact hne (e1.symm.trans e2)
    have g1 : tm.alphabet.getD j1 "" = c1 := by rw [List.getD_eq_getElem _ _ hj1, e1]
    have g2 : tm.alphabet.getD j2 "" = c2 := by rw [List.getD_eq_getElem _ _ hj2, e2]
    rcases Nat.lt_or_ge j1 j2 with hlt | hge
    · exact noMultipleChars_pair tm v hsat i hi k hk j1 j2 hj2 hlt
        (by rw [g1, g2]; exact hboth)
    · have hlt : j2 < j1 := by omega
      exact noMultipleChars_pair tm v hsat i hi k hk j2 j1 hj1 hlt
        (by rw [g1, g2]; exact ⟨hboth.2, hboth.1⟩)

/-- The satisfying assignment for `tmTiny`: the machine starts in its
accepting state on the one-letter word. -/
def vTiny : String → Bool :=
  fun s => decide (s ∈ ([xName 0 "A", yName 0 0, zName 0 0 "a"] : List String))

theorem claim_C9_at_most_one_witness :
    BForm.eval vTiny (generateSAT tmTiny) = true ∧
    (∀ i < tmTiny.word.length,
      (∀ q1 ∈ tmTiny.states, ∀ q2 ∈ tmTiny.states, q1 ≠ q2 →
        ¬ (vTiny (xName i q1) = true ∧ vTiny (xName i q2) = true)) ∧
      (∀ k1 < tmTiny.word.length, ∀ k2 < tmTiny.word.length, k1 ≠ k2 →
        ¬ (vTiny (yName i k1) = true ∧ vTiny (yName i k2) = true)) ∧
      (∀ k < tmTiny.word.length, ∀ c1 ∈ tmTiny.alphabet, ∀ c2 ∈ tmTiny.alphabet, c1 ≠ c2 →
        ¬ (vTiny (zName i k c1) = true ∧ vTiny (zName i k c2) = true))) :=
  ⟨by decide, claim_C9_at_most_one tmTiny vTiny (by decide)⟩

/-! ### Claim C4: the NO / YES output discipline of the main block -/

theorem formatStep_length (sh : List String) (hh : List Nat)
    (th : List (List (Nat × String))) (acc : List String) (step : Nat)
    (out : List String) (h : formatStep sh hh th acc step = some out) :
    out.length = acc.length + 1 := by
  unfold formatStep at h
  split at h
  · split at h
    · cases h
      simp
    · cases h
  · cases h

theorem foldlM_formatStep_length (sh : List String) (hh : List Nat)
    (th : List (List (Nat × String))) :
    ∀ (l : List Nat) (acc out : List String),
      l.foldlM (formatStep sh hh th) acc = some out →
      out.length = acc.length + l.length := by
  intro l
  induction l with
  | nil =>
    intro acc out h
    simp only [List.foldlM_nil] at h
    cases h
    simp
  | cons a l ih =>
    intro acc out h
    rw [List.foldlM_cons] at h
    cases h1 : formatStep sh hh th acc a with
    | none => rw [h1] at h; cases h
    | some acc2 =>
      rw [h1] at h
      simp only [Option.bind_eq_bind, Option.some_bind] at h
      have h2 := formatStep_length sh hh th acc a acc2 h1
      have h3 := ih acc2 out h
      simp only [List.length_cons]
      omega

theorem formatHistory_length (sh : List String) (hh : List Nat)
    (th : List (List (Nat × String))) (out : List String)
    (h : formatHistory sh hh th = some out) : out.length = sh.length := by
  unfold formatHistory at h
  have := foldlM_formatStep_length sh hh th (List.range sh.length) [] out h
  simpa using this

theorem decodeSteps_fst_ne_nil (tm : TM) (v : List (String × Bool)) :
    ∀ (l : List Nat) (sh : List String) (hh : List Nat)
      (th : List (List (Nat × String)))
      (res : List String × List Nat × List (List (Nat × String))),
      decodeSteps tm v l (sh, hh, th) = some res →
      (l = [] → sh ≠ []) → res.1 ≠ [] := by
  intro l
  induction l with
  | nil =>
    intro sh hh th res h hne
    rw [decodeSteps] at h
    cases h
    exact hne rfl
  | cons step rest ih =>
    intro sh hh th res h hne
    rw [decodeSteps] at h
    cases h1 : findTrue v (tm.states.map fun q => (xName step q, q)) with
    | none => rw [h1] at h; cases h
    | some so =>
      rw [h1] at h
      simp only [Option.bind_eq_bind, Option.some_bind] at h
      cases h2 : findTrue v ((List.range tm.word.length).map fun k => (yName step k, k)) with
      | none => rw [h2] at h; cases h
      | some ho =>
        rw [h2] at h
        simp only [Option.bind_eq_bind, Option.some_bind] at h
        cases h3 : scanTapeStep tm v step with
        | none => rw [h3] at h; cases h
        | some trow =>
          rw [h3] at h
          simp only [Option.bind_eq_bind, Option.some_bind] at h
          cases h4 : (match so with
            | some q => sh ++ [q]
            | none => sh).getLast? with
          | none => rw [h4] at h; cases h
          | some q =>
            rw [h4] at h
            simp only [Option.bind_eq_bind, Option.some_bind] at h
            have hsh2 : (match so with
                | some q => sh ++ [q]
                | none => sh) ≠ [] := by
              intro he
              rw [he] at h4
              simp at h4
            by_cases hacc : q = tm.acceptingState
            · rw [if_pos hacc] at h
              cases h
              exact hsh2
            · rw [if_neg hacc] at h
              exact ih _ _ _ res h (fun _ => hsh2)

/-- C4 (amended): for a NON-EMPTY input word, the script prints `NO` exactly
when the valuation returned by `solveSAT` is empty, and when the decoding of
a non-empty valuation succeeds the script prints `YES` followed by the
decoded configuration history; `decodeSATOutput` succeeds with the empty
history exactly on the empty valuation.  (For the empty word the last
equivalence fails: `decodeSATOutput` returns the empty history on every
valuation.  A decoding failure — a missing valuation key or missing decoded
configuration data, a Python `KeyError` or `IndexError` — produces no output
at all and is modelled by `none`.) -/
theorem claim_C4_no_iff_empty_valuation (tm : TM) (v : List (String × Bool))
    (hw : tm.word ≠ []) :
    (decodeSATOutput tm v = some [] ↔ v = []) ∧
    (mainOutput tm v = some ["NO"] ↔ v = []) ∧
    (∀ h, decodeSATOutput tm v = some h → h ≠ [] →
      mainOutput tm v = some ("YES\n" :: h)) := by
  have hdec : decodeSATOutput tm v = some [] ↔ v = [] := by
    constructor
    · intro h
      by_contra hv
      have hlen : ¬ v.length = 0 := by
        intro h0
        exact hv (List.length_eq_zero.mp h0)
      rw [decodeSATOutput, if_neg hlen] at h
      cases hds : decodeSteps tm v (List.range tm.word.length) ([], [], []) with
      | none => rw [hds] at h; cases h
      | some res =>
        rw [hds] at h
        obtain ⟨sh, hh, th⟩ := res
        have h1 : sh ≠ [] := by
          refine decodeSteps_fst_ne_nil tm v _ [] [] [] (sh, hh, th) hds ?_
          intro hr
          exfalso
          rw [List.range_eq_nil] at hr
          exact hw (List.length_eq_zero.mp hr)
        have h2 := formatHistory_length sh hh th [] h
        simp only [List.length_nil] at h2
        exact h1 (List.length_eq_zero.mp h2.symm)
    · intro h
      subst h
      rw [decodeSATOutput]
      simp
  refine ⟨hdec, ?_, ?_⟩
  · rw [mainOutput]
    constructor
    · intro h
      cases hd : decodeSATOutput tm v with
      | none => rw [hd] at h; cases h
      | some hist =>
        rw [hd] at h
        cases hist with
        | nil => exact hdec.mp hd
        | cons a t => simp at h
    · intro h
      rw [hdec.mpr h]
  · intro h hdecode hne
    rw [mainOutput, hdecode]
    cases h with
    | nil => exact absurd rfl hne
    | cons a t => rfl

/-- C4 counterexample: on the empty input word, `decodeSATOutput` returns the
empty history even for a non-empty valuation, so the claimed equivalence
"empty result exactly on empty valuation" fails as stated. -/
theorem claim_C4_counterexample :
    decodeSATOutput tmEmptyWord [("a", true)] = some [] ∧
    ([("a", true)] : List (String × Bool)) ≠ [] := by
  constructor
  · rfl
  · simp

theorem claim_C4_no_iff_empty_valuation_witness :
    tmTiny.word ≠ [] ∧
    ((decodeSATOutput tmTiny [] = some [] ↔ ([] : List (String × Bool)) = []) ∧
     (mainOutput tmTiny [] = some ["NO"] ↔ ([] : List (String × Bool)) = []) ∧
     (∀ h, decodeSATOutput tmTiny [] = some h → h ≠ [] →
       mainOutput tmTiny [] = some ("YES\n" :: h))) :=
  ⟨by simp [tmTiny], claim_C4_no_iff_empty_valuation tmTiny [] (by simp [tmTiny])⟩

/-! ### Claim C10: shape of a successfully decoded history -/

theorem findTrue_payload {α : Type} (v : List (String × Bool)) :
    ∀ (names : List (String × α)) (a : α),
      findTrue v names = some (some a) → ∃ p ∈ names, p.2 = a := by
  intro names
  induction names with
  | nil =>
    intro a h
    rw [findTrue] at h
    simp at h
  | cons p rest ih =>
    intro a h
    rw [findTrue] at h
    cases hl : v.lookup p.1 with
    | none => rw [hl] at h; cases h
    | some b =>
      rw [hl] at h
      cases b with
      | true =>
        simp only [Option.some_inj] at h
        exact ⟨p, List.mem_cons_self p rest, h⟩
      | false =>
        obtain ⟨p', hp', he⟩ := ih a h
        exact ⟨p', List.mem_cons_of_mem p hp', he⟩

/-- A fold over `Option` whose every step appends one known element computes
the map of the step list. -/
theorem foldlM_append_map {α β : Type} (f : List β → α → Option (List β))
    (g : α → β) :
    ∀ (l : List α), (∀ acc a, a ∈ l → f acc a = some (acc ++ [g a])) →
      ∀ acc, l.foldlM f acc = some (acc ++ l.map g) := by
  intro l
  induction l with
  | nil =>
    intro _ acc
    simp [List.foldlM_nil]
  | cons a l ih =>
    intro hstep acc
    rw [List.foldlM_cons, hstep acc a (List.mem_cons_self a l)]
    simp only [Option.bind_eq_bind, Option.some_bind]
    rw [ih (fun acc' a' ha' => hstep acc' a' (List.mem_cons_of_mem a ha')) (acc ++ [g a])]
    simp

theorem scanTapeStep_computes (tm : TM) (v : List (String × Bool)) (i : Nat)
    (ts : Nat → String)
    (hz : ∀ k < tm.word.length,
      findTrue v (tm.alphabet.map fun c => (zName i k c, c)) = some (some (ts k))) :
    scanTapeStep tm v i = some ((List.range tm.word.length).map fun k => (k, ts k)) := by
  unfold scanTapeStep
  have := foldlM_append_map
    (fun acc pos =>
      (findTrue v (tm.alphabet.map fun c => (zName i pos c, c))).map fun r =>
        match r with
        | some c => acc ++ [(pos, c)]
        | none => acc)
    (fun pos => (pos, ts pos)) (List.range tm.word.length)
    (by
      intro acc pos hpos
      rw [List.mem_range] at hpos
      simp only [hz pos hpos]
      rfl) []
  simpa using this

theorem formatStep_computes (sh : List String) (hh : List Nat)
    (th : List (List (Nat × String))) (n : Nat) (qs : Nat → String)
    (hs : Nat → Nat) (ts : Nat → Nat → String)
    (hsh : sh = (List.range sh.length).map qs)
    (hhh : hh = (List.range sh.length).map hs)
    (hth : th = (List.range sh.length).map fun j => (List.range n).map fun k => (k, ts j k))
    (hhs : ∀ j < sh.length, hs j < n) :
    ∀ (acc : List String) (j : Nat), j ∈ List.range sh.length →
      formatStep sh hh th acc j = some (acc ++
        [String.intercalate " " (((List.range n).map fun k => ts j k ++ "| ").set (hs j)
          ((ts j (hs j) ++ "| ").dropRight 1 ++ qs j))]) := by
  intro acc j hj
  rw [List.mem_range] at hj
  have hthj : th.get? j = some ((List.range n).map fun k => (k, ts j k)) := by
    rw [hth, List.get?_map, List.get?_range hj]
    rfl
  have hshj : sh.get? j = some (qs j) := by
    conv_lhs => rw [hsh]
    rw [List.get?_map, List.get?_range hj]
    rfl
  have hhhj : hh.get? j = some (hs j) := by
    rw [hhh, List.get?_map, List.get?_range hj]
    rfl
  have hmap : ((List.range n).map fun k => (k, ts j k)).map
      (fun p => p.2 ++ "| ") = (List.range n).map fun k => ts j k ++ "| " := by
    rw [List.map_map]
    rfl
  have hget : ((List.range n).map fun k => ts j k ++ "| ").get? (hs j) =
      some (ts j (hs j) ++ "| ") := by
    rw [List.get?_map, List.get?_range (hhs j hj)]
    rfl
  unfold formatStep
  rw [hthj, hshj, hhhj]
  dsimp only
  rw [hmap, hget]

theorem decodeSteps_run (tm : TM) (v : List (String × Bool))
    (qs : Nat → String) (hs : Nat → Nat) (ts : Nat → Nat → String)
    (hq : ∀ i < tm.word.length,
      findTrue v (tm.states.map fun q => (xName i q, q)) = some (some (qs i)))
    (hh : ∀ i < tm.word.length,
      findTrue v ((List.range tm.word.length).map fun k => (yName i k, k)) =
        some (some (hs i)))
    (hz : ∀ i < tm.word.length, ∀ k < tm.word.length,
      findTrue v (tm.alphabet.map fun c => (zName i k c, c)) = some (some (ts i k))) :
    ∀ (r i : Nat), i + r = tm.word.length → (∀ j < i, qs j ≠ tm.acceptingState) →
      ∃ m, i ≤ m ∧ m ≤ tm.word.length ∧
        (m = tm.word.length ∨ (1 ≤ m ∧ qs (m - 1) = tm.acceptingState)) ∧
        (∀ j, j + 1 < m → qs j ≠ tm.acceptingState) ∧
        decodeSteps tm v (List.range' i r)
          ((List.range i).map qs, (List.range i).map hs,
           (List.range i).map fun j => (List.range tm.word.length).map fun k => (k, ts j k)) =
        some ((List.range m).map qs, (List.range m).map hs,
          (List.range m).map fun j => (List.range tm.word.length).map fun k => (k, ts j k)) := by
  intro r
  induction r with
  | zero =>
    intro i hi hacc
    refine ⟨i, Nat.le_refl i, by omega, Or.inl (by omega),
      fun j hj => hacc j (by omega), ?_⟩
    rw [show List.range' i 0 = [] from rfl, decodeSteps]
  | succ r ih =>
    intro i hi hacc
    have hilt : i < tm.word.length := by omega
    have hrange : List.range' i (r + 1) = i :: List.range' (i + 1) r :=
      List.range'_succ i r 1
    have hmapq : (List.range (i + 1)).map qs = (List.range i).map qs ++ [qs i] := by
      rw [List.range_succ, List.map_append]
      rfl
    have hmaph : (List.range (i + 1)).map hs = (List.range i).map hs ++ [hs i] := by
      rw [List.range_succ, List.map_append]
      rfl
    have hmapt : ((List.range (i + 1)).map fun j =>
        (List.range tm.word.length).map fun k => (k, ts j k)) =
        ((List.range i).map fun j =>
          (List.range tm.word.length).map fun k => (k, ts j k)) ++
          [(List.range tm.word.length).map fun k => (k, ts i k)] := by
      rw [List.range_succ, List.map_append]
      rfl
    rw [hrange, decodeSteps, hq i hilt]
    simp only [Option.bind_eq_bind, Option.some_bind]
    rw [hh i hilt]
    simp only [Option.bind_eq_bind, Option.some_bind]
    rw [scanTapeStep_computes tm v i (ts i) (hz i hilt)]
    simp only [Option.bind_eq_bind, Option.some_bind]
    rw [List.getLast?_concat]
    simp only [Option.bind_eq_bind, Option.some_bind]
    by_cases haci : qs i = tm.acceptingState
    · rw [if_pos haci]
      refine ⟨i + 1, by omega, by omega, Or.inr ⟨by omega, by simpa using haci⟩,
        fun j hj => hacc j (by omega), ?_⟩
      rw [hmapq, hmaph, hmapt]
    · rw [if_neg haci]
      obtain ⟨m, him, hmn, haccm, hnem, hds⟩ := ih (i + 1) (by omega)
        (by
          intro j hj
          rcases Nat.lt_or_ge j i with hj2 | hj2
          · exact hacc j hj2
          · have : j = i := by omega
            rw [this]
            exact haci)
      refine ⟨m, by omega, hmn, haccm, hnem, ?_⟩
      rw [← hds, hmapq, hmaph, hmapt]

/-- C10 (amended): whenever the valuation is non-empty and the decoding
searches succeed at every step — at each step some state variable among the
machine states is true (first hit `qs i`), some head-position variable is
true (first hit `hs i`), and for every cell some character variable is true
(first hit `ts i k`) — `decodeSATOutput` returns a history of at most `|w|`
configurations truncated at the first step whose decoded state is the
accepting state: every configuration before the last has a non-accepting
decoded state, and line `j` renders the decoded tape cells with the decoded
state string placed at the decoded head position.  (The original claim fails:
a valuation may define every literal name yet set all state variables false,
in which case `decodeSATOutput` raises an `IndexError` and returns nothing.) -/
theorem claim_C10_decode_shape (tm : TM) (v : List (String × Bool))
    (qs : Nat → String) (hs : Nat → Nat) (ts : Nat → Nat → String)
    (hv : v ≠ [])
    (hq : ∀ i < tm.word.length,
      findTrue v (tm.states.map fun q => (xName i q, q)) = some (some (qs i)))
    (hh : ∀ i < tm.word.length,
      findTrue v ((List.range tm.word.length).map fun k => (yName i k, k)) =
        some (some (hs i)))
    (hz : ∀ i < tm.word.length, ∀ k < tm.word.length,
      findTrue v (tm.alphabet.map fun c => (zName i k c, c)) = some (some (ts i k))) :
    ∃ m, m ≤ tm.word.length ∧
      (m = tm.word.length ∨ (1 ≤ m ∧ qs (m - 1) = tm.acceptingState)) ∧
      (∀ j, j + 1 < m → qs j ≠ tm.acceptingState) ∧
      decodeSATOutput tm v = some ((List.range m).map fun j =>
        String.intercalate " "
          (((List.range tm.word.length).map fun k => ts j k ++ "| ").set (hs j)
            ((ts j (hs j) ++ "| ").dropRight 1 ++ qs j))) := by
  have hhs : ∀ i < tm.word.length, hs i < tm.word.length := by
    intro i hi
    obtain ⟨p, hp, he⟩ := findTrue_payload v _ _ (hh i hi)
    simp only [List.mem_map, List.mem_range] at hp
    obtain ⟨k, hk, he2⟩ := hp
    rw [← he, ← he2]
    exact hk
  obtain ⟨m, h0m, hmn, hacc, hnacc, hds⟩ :=
    decodeSteps_run tm v qs hs ts hq hh hz tm.word.length 0 (by omega)
      (by omega)
  refine ⟨m, hmn, hacc, hnacc, ?_⟩
  have hlen0 : ¬ v.length = 0 := by
    intro h0
    exact hv (List.length_eq_zero.mp h0)
  rw [decodeSATOutput, if_neg hlen0]
  rw [← List.range_eq_range'] at hds
  simp only [List.range_zero, List.map_nil] at hds
  rw [hds]
  dsimp only
  have hshlen : ((List.range m).map qs).length = m := by simp
  have hcomp := formatStep_computes ((List.range m).map qs) ((List.range m).map hs)
    ((List.range m).map fun j => (List.range tm.word.length).map fun k => (k, ts j k))
    tm.word.length qs hs ts (by rw [hshlen]) (by rw [hshlen]) (by rw [hshlen])
    (by
      rw [hshlen]
      intro j hj
      exact hhs j (by omega))
  rw [formatHistory, hshlen]
  have := foldlM_append_map
    (formatStep ((List.range m).map qs) ((List.range m).map hs)
      ((List.range m).map fun j => (List.range tm.word.length).map fun k => (k, ts j k)))
    (fun j => String.intercalate " "
      (((List.range tm.word.length).map fun k => ts j k ++ "| ").set (hs j)
        ((ts j (hs j) ++ "| ").dropRight 1 ++ qs j)))
    (List.range m)
    (by
      intro acc j hj
      rw [hcomp acc j (by rwa [hshlen])])
    []
  rw [this]
  simp

/-- The machine for the C10 counterexample: one state, but the accepting
state is a different name. -/
def tmC10 : TM :=
  { alphabet := ["a"], states := ["A"], transitions := fun _ _ => [],
    initState := "A", acceptingState := "B", word := ["a"] }

/-- A valuation defining every literal name of `tmC10`, with every variable
false. -/
def vC10 : List (String × Bool) :=
  [(xName 0 "A", false), (yName 0 0, false), (zName 0 0 "a", false)]

/-- C10 counterexample: `vC10` is non-empty and defines every literal name,
yet no state variable is true at step 0, so `stateHistory` stays empty and
reading `stateHistory[-1]` fails: `decodeSATOutput` returns no history at
all, contradicting the claim that it returns a truncated history. -/
theorem claim_C10_counterexample :
    decodeSATOutput tmC10 vC10 = none ∧ vC10 ≠ [] ∧
    (∀ i < tmC10.word.length,
      (∀ q ∈ tmC10.states, (vC10.lookup (xName i q)).isSome = true) ∧
      (∀ k < tmC10.word.length, (vC10.lookup (yName i k)).isSome = true) ∧
      (∀ k < tmC10.word.length, ∀ c ∈ tmC10.alphabet,
        (vC10.lookup (zName i k c)).isSome = true)) := by
  refine ⟨by decide, by simp [vC10], by decide⟩

/-- Machine and valuation for the C10 witness: the accepting state `B` is
decoded at step 0. -/
def tmC10w : TM :=
  { alphabet := ["a"], states := ["A", "B"], transitions := fun _ _ => [],
    initState := "A", acceptingState := "B", word := ["a"] }

def vC10w : List (String × Bool) :=
  [(xName 0 "A", false), (xName 0 "B", true), (yName 0 0, true),
   (zName 0 0 "a", true)]

theorem claim_C10_decode_shape_witness :
    (vC10w ≠ [] ∧
     (∀ i < tmC10w.word.length,
       findTrue vC10w (tmC10w.states.map fun q => (xName i q, q)) =
         some (some ((fun _ => "B") i))) ∧
     (∀ i < tmC10w.word.length,
       findTrue vC10w ((List.range tmC10w.word.length).map fun k => (yName i k, k)) =
         some (some ((fun _ => 0) i))) ∧
     (∀ i < tmC10w.word.length, ∀ k < tmC10w.word.length,
       findTrue vC10w (tmC10w.alphabet.map fun c => (zName i k c, c)) =
         some (some ((fun _ _ => "a") i k)))) ∧
    (∃ m, m ≤ tmC10w.word.length ∧
      (m = tmC10w.word.length ∨ (1 ≤ m ∧ (fun _ => "B") (m - 1) = tmC10w.acceptingState)) ∧
      (∀ j, j + 1 < m → (fun _ => "B") j ≠ tmC10w.acceptingState) ∧
      decodeSATOutput tmC10w vC10w = some ((List.range m).map fun j =>
        String.intercalate " "
          (((List.range tmC10w.word.length).map fun k =>
              (fun _ _ => "a") j k ++ "| ").set ((fun _ => 0) j)
            (((fun _ _ => "a") j ((fun _ => 0) j) ++ "| ").dropRight 1 ++
              (fun _ => "B") j)))) := by
  have h1 : vC10w ≠ [] := by simp [vC10w]
  have h2 : ∀ i < tmC10w.word.length,
      findTrue vC10w (tmC10w.states.map fun q => (xName i q, q)) =
        some (some ((fun _ => "B") i)) := by decide
  have h3 : ∀ i < tmC10w.word.length,
      findTrue vC10w ((List.range tmC10w.word.length).map fun k => (yName i k, k)) =
        some (some ((fun _ => 0) i)) := by decide
  have h4 : ∀ i < tmC10w.word.length, ∀ k < tmC10w.word.length,
      findTrue vC10w (tmC10w.alphabet.map fun c => (zName i k c, c)) =
        some (some ((fun _ _ => "a") i k)) := by decide
  exact ⟨⟨h1, h2, h3, h4⟩,
    claim_C10_decode_shape tmC10w vC10w (fun _ => "B") (fun _ => 0)
      (fun _ _ => "a") h1 h2 h3 h4⟩

/-! ### Claim C1: the encoding versus valid accepting runs -/

/-- The machine used to refute the original claim C1: no transitions at all,
so no accepting run exists, yet the generated formula is satisfiable because
stuck configurations produce no transition constraint
(`_formulasValidTransitions` skips implications with an empty consequent). -/
def tmStuck : TM :=
  { alphabet := ["a"], states := ["A", "B"], transitions := fun _ _ => [],
    initState := "A", acceptingState := "B", word := ["a", "a"] }

/-- A satisfying assignment for `generateSAT tmStuck` that fabricates an
acceptance at step 1 out of nothing. -/
def vStuck : String → Bool :=
  fun s => decide (s ∈ ([xName 0 "A", xName 1 "B", yName 0 0,
    zName 0 0 "a", zName 0 1 "a", zName 1 1 "a"] : List String))

/-- C1 counterexample: `generateSAT tmStuck` is satisfiable although the
machine has no valid accepting run on its word at all, so satisfying
assignments do not correspond to accepting runs. -/
theorem claim_C1_counterexample :
    BForm.eval vStuck (generateSAT tmStuck) = true ∧
    ¬ TM.AcceptsWithin tmStuck tmStuck.word.length := by
  constructor
  · decide
  · rintro ⟨cs, hne, hhead, hchain, hlen, hbounds, clast, hlast, hacc⟩
    cases cs with
    | nil => exact hne rfl
    | cons c0 rest =>
      simp only [List.head?_cons, Option.some_inj] at hhead
      subst hhead
      cases rest with
      | nil =>
        simp only [List.getLast?_singleton, Option.some_inj] at hlast
        rw [← hlast] at hacc
        simp [TM.initConfig, tmStuck] at hacc
      | cons c1 rest2 =>
        rw [List.chain'_cons] at hchain
        obtain ⟨t, ht, _⟩ := hchain.1
        simp [tmStuck] at ht

/-- The configuration reached by taking transition `t` from `c`. -/
def applyTrans (c : Config) (t : String × String × Int) : Config :=
  { state := t.1, head := ((c.head : Int) + t.2.2).toNat,
    tape := c.tape.set c.head t.2.1 }

/-- The in-bounds test on a transition, as in `_formulasValidTransitions`. -/
def transOK (tm : TM) (c : Config) (t : String × String × Int) : Bool :=
  decide (0 ≤ (c.head : Int) + t.2.2 ∧
    (c.head : Int) + t.2.2 < (tm.word.length : Int))

/-- Deterministic continuation of a run: keep taking the first in-bounds
transition until none applies or the fuel runs out.  Used to extend an
accepting run into a full satisfying assignment (later steps must continue to
obey the transition constraints whenever some in-bounds transition exists). -/
def contRun (tm : TM) : Nat → Config → List Config
  | 0, _ => []
  | fuel + 1, c =>
    match (tm.transitions c.state (c.tape.getD c.head "")).find? (transOK tm c) with
    | none => []
    | some t => applyTrans c t :: contRun tm fuel (applyTrans c t)

theorem contRun_length (tm : TM) :
    ∀ (fuel : Nat) (c : Config), (contRun tm fuel c).length ≤ fuel := by
  intro fuel
  induction fuel with
  | zero => intro c; rw [contRun]; simp
  | succ fuel ih =>
    intro c
    rw [contRun]
    cases hf : (tm.transitions c.state (c.tape.getD c.head "")).find? (transOK tm c) with
    | none => simp
    | some t =>
      simp only [List.length_cons]
      exact Nat.succ_le_succ (ih _)

theorem applyTrans_step (tm : TM) (c : Config) (t : String × String × Int)
    (hmem : t ∈ tm.transitions c.state (c.tape.getD c.head ""))
    (hok : transOK tm c t = true) : tm.Step c (applyTrans c t) := by
  rw [transOK, decide_eq_true_eq] at hok
  refine ⟨t, hmem, rfl, ?_, ?_, rfl⟩
  · rw [applyTrans]
    simp only
    rw [Int.toNat_of_nonneg hok.1]
  · rw [applyTrans]
    simp only
    omega

theorem applyTrans_inBounds (tm : TM) (c : Config) (t : String × String × Int)
    (hc : tm.InBounds c) (hok : transOK tm c t = true) :
    tm.InBounds (applyTrans c t) := by
  rw [transOK, decide_eq_true_eq] at hok
  refine ⟨?_, ?_⟩
  · rw [applyTrans]
    simp only
    omega
  · rw [applyTrans]
    simp only
    rw [List.length_set]
    exact hc.2

theorem contRun_chain (tm : TM) :
    ∀ (fuel : Nat) (c : Config), List.Chain tm.Step c (contRun tm fuel c) := by
  intro fuel
  induction fuel with
  | zero => intro c; rw [contRun]; exact List.Chain.nil
  | succ fuel ih =>
    intro c
    rw [contRun]
    cases hf : (tm.transitions c.state (c.tape.getD c.head "")).find? (transOK tm c) with
    | none => exact List.Chain.nil
    | some t =>
      exact List.Chain.cons
        (applyTrans_step tm c t (List.mem_of_find?_eq_some hf) (List.find?_some hf))
        (ih _)

theorem contRun_bounds (tm : TM) :
    ∀ (fuel : Nat) (c : Config), tm.InBounds c →
      ∀ c2 ∈ contRun tm fuel c, tm.InBounds c2 := by
  intro fuel
  induction fuel with
  | zero => intro c _ c2 h2; rw [contRun] at h2; cases h2
  | succ fuel ih =>
    intro c hc c2 h2
    rw [contRun] at h2
    cases hf : (tm.transitions c.state (c.tape.getD c.head "")).find? (transOK tm c) with
    | none => rw [hf] at h2; cases h2
    | some t =>
      rw [hf] at h2
      have hb := applyTrans_inBounds tm c t hc (List.find?_some hf)
      rcases List.mem_cons.mp h2 with h3 | h3
      · rw [h3]; exact hb
      · exact ih _ hb c2 h3

/-- When the continuation stops before exhausting its fuel, its final
configuration has no in-bounds transition at all. -/
theorem contRun_dead (tm : TM) :
    ∀ (fuel : Nat) (c : Config), (contRun tm fuel c).length < fuel →
      (tm.transitions ((contRun tm fuel c).getLastD c).state
          (((contRun tm fuel c).getLastD c).tape.getD
            ((contRun tm fuel c).getLastD c).head "")).find?
        (transOK tm ((contRun tm fuel c).getLastD c)) = none := by
  intro fuel
  induction fuel with
  | zero => intro c h; omega
  | succ fuel ih =>
    intro c h
    rw [contRun] at h ⊢
    cases hf : (tm.transitions c.state (c.tape.getD c.head "")).find? (transOK tm c) with
    | none =>
      simp only [List.getLastD_nil]
      exact hf
    | some t =>
      rw [hf] at h
      simp only [List.getLastD_cons]
      simp only [List.length_cons] at h
      exact ih (applyTrans c t) (by omega)

/-- Configuration of the extended run at step `i`. -/
def cfgAt (tm : TM) (ds : List Config) (i : Nat) : Config :=
  ds.getD i tm.initConfig

/-- Tape contents used for step `i`: the tape of the configuration at `i`
while the run is live, frozen at the final configuration afterwards. -/
def tapeAt (tm : TM) (ds : List Config) (i : Nat) : List String :=
  (ds.getD (min i (ds.length - 1)) tm.initConfig).tape

/-- The names set true by the assignment built from an extended run: one
state and one head-position variable per live step, and one character
variable per step and cell. -/
def trueNames (tm : TM) (ds : List Config) : List String :=
  ((List.range ds.length).flatMap fun i =>
    [xName i ((cfgAt tm ds i).state), yName i ((cfgAt tm ds i).head)]) ++
  ((List.range tm.word.length).flatMap fun i =>
    (List.range tm.word.length).map fun k =>
      zName i k ((tapeAt tm ds i).getD k ""))

/-- The satisfying assignment built from an extended run. -/
def runValuation (tm : TM) (ds : List Config) : String → Bool :=
  fun s => decide (s ∈ trueNames tm ds)

theorem runValuation_x (tm : TM) (ds : List Config) (i : Nat) (q : String) :
    runValuation tm ds (xName i q) = true ↔
      (i < ds.length ∧ q = (cfgAt tm ds i).state) := by
  rw [runValuation, decide_eq_true_eq, trueNames, List.mem_append]
  constructor
  · intro h
    rcases h with h | h
    · rw [List.mem_flatMap] at h
      obtain ⟨i2, hi2, hmem⟩ := h
      rw [List.mem_range] at hi2
      rcases List.mem_cons.mp hmem with he | hmem2
      · obtain ⟨hie, hqe⟩ := xName_inj he
        subst hie
        exact ⟨hi2, hqe⟩
      · rcases List.mem_cons.mp hmem2 with he | h3
        · exact absurd he (xName_ne_yName _ _ _ _)
        · cases h3
    · rw [List.mem_flatMap] at h
      obtain ⟨i2, _, hmem⟩ := h
      rw [List.mem_map] at hmem
      obtain ⟨k2, _, he⟩ := hmem
      exact absurd he.symm (xName_ne_zName _ _ _ _ _)
  · rintro ⟨hi, hq⟩
    refine Or.inl (List.mem_flatMap.mpr ⟨i, List.mem_range.mpr hi, ?_⟩)
    rw [hq]
    exact List.mem_cons_self _ _

theorem runValuation_y (tm : TM) (ds : List Config) (i k : Nat) :
    runValuation tm ds (yName i k) = true ↔
      (i < ds.length ∧ k = (cfgAt tm ds i).head) := by
  rw [runValuation, decide_eq_true_eq, trueNames, List.mem_append]
  constructor
  · intro h
    rcases h with h | h
    · rw [List.mem_flatMap] at h
      obtain ⟨i2, hi2, hmem⟩ := h
      rw [List.mem_range] at hi2
      rcases List.mem_cons.mp hmem with he | hmem2
      · exact absurd he.symm (xName_ne_yName _ _ _ _)
      · rcases List.mem_cons.mp hmem2 with he | h3
        · obtain ⟨hie, hke⟩ := yName_inj he
          subst hie
          exact ⟨hi2, hke⟩
        · cases h3
    · rw [List.mem_flatMap] at h
      obtain ⟨i2, _, hmem⟩ := h
      rw [List.mem_map] at hmem
      obtain ⟨k2, _, he⟩ := hmem
      exact absurd he.symm (yName_ne_zName _ _ _ _ _)
  · rintro ⟨hi, hk⟩
    refine Or.inl (List.mem_flatMap.mpr ⟨i, List.mem_range.mpr hi, ?_⟩)
    rw [hk]
    exact List.mem_cons_of_mem _ (List.mem_cons_self _ _)

theorem zName_ne_xName' (i k : Nat) (c : String) (i' : Nat) (q' : String) :
    zName i k c ≠ xName i' q' := by
  intro h
  exact xName_ne_zName i' q' i k c h.symm

theorem zName_ne_yName' (i k : Nat) (c : String) (i' k' : Nat) :
    zName i k c ≠ yName i' k' := by
  intro h
  exact yName_ne_zName i' k' i k c h.symm

theorem runValuation_z (tm : TM) (ds : List Config) (i k : Nat) (c : String) :
    runValuation tm ds (zName i k c) = true ↔
      (i < tm.word.length ∧ k < tm.word.length ∧
        c = (tapeAt tm ds i).getD k "") := by
  rw [runValuation, decide_eq_true_eq, trueNames, List.mem_append]
  constructor
  · intro h
    rcases h with h | h
    · rw [List.mem_flatMap] at h
      obtain ⟨i2, hi2, hmem⟩ := h
      rcases List.mem_cons.mp hmem with he | hmem2
      · exact absurd he (zName_ne_xName' _ _ _ _ _)
      · rcases List.mem_cons.mp hmem2 with he | h3
        · exact absurd he (zName_ne_yName' _ _ _ _ _)
        · cases h3
    · rw [List.mem_flatMap] at h
      obtain ⟨i2, hi2, hmem⟩ := h
      rw [List.mem_range] at hi2
      rw [List.mem_map] at hmem
      obtain ⟨k2, hk2, he⟩ := hmem
      rw [List.mem_range] at hk2
      obtain ⟨hie, hke, hce⟩ := zName_inj he.symm
      subst hie
      subst hke
      exact ⟨hi2, hk2, hce⟩
  · rintro ⟨hi, hk, hc⟩
    refine Or.inr (List.mem_flatMap.mpr ⟨i, List.mem_range.mpr hi, ?_⟩)
    rw [List.mem_map]
    exact ⟨k, List.mem_range.mpr hk, by rw [hc]⟩

theorem eval_andL (v : String → Bool) (l : List BForm) :
    BForm.eval v (.andL l) = BForm.evalAll v l := rfl

theorem eval_orL (v : String → Bool) (l : List BForm) :
    BForm.eval v (.orL l) = BForm.evalAny v l := rfl

theorem eval_bvar (v : String → Bool) (s : String) :
    BForm.eval v (.bvar s) = v s := rfl

theorem eval_bnot_pair (v : String → Bool) (a b : String)
    (h : ¬ (v a = true ∧ v b = true)) :
    BForm.eval v (.bnot (.andL [.bvar a, .bvar b])) = true := by
  cases ha : v a with
  | false => simp [BForm.eval, BForm.evalAll, ha]
  | true =>
    cases hb : v b with
    | false => simp [BForm.eval, BForm.evalAll, ha, hb]
    | true => exact absurd ⟨ha, hb⟩ h

theorem eval_impl_triple (v : String → Bool) (a b c : String) (ψ : BForm)
    (h : v a = true → v b = true → v c = true → BForm.eval v ψ = true) :
    BForm.eval v (.impl (.andL [.bvar a, .bvar b, .bvar c]) ψ) = true := by
  cases ha : v a with
  | false => simp [BForm.eval, BForm.evalAll, ha]
  | true =>
    cases hb : v b with
    | false => simp [BForm.eval, BForm.evalAll, ha, hb]
    | true =>
      cases hc : v c with
      | false => simp [BForm.eval, BForm.evalAll, ha, hb, hc]
      | true => simp [BForm.eval, BForm.evalAll, ha, hb, hc, h ha hb hc]

theorem eval_impl_notpair (v : String → Bool) (a b c : String)
    (h : v a = false → v b = true → v c = true) :
    BForm.eval v (.impl (.andL [.bnot (.bvar a), .bvar b]) (.bvar c)) = true := by
  cases ha : v a with
  | true => simp [BForm.eval, BForm.evalAll, ha]
  | false =>
    cases hb : v b with
    | false => simp [BForm.eval, BForm.evalAll, ha, hb]
    | true => simp [BForm.eval, BForm.evalAll, ha, hb, h ha hb]

theorem getD_set_ne {α : Type} (l : List α) (i j : Nat) (a d : α) (h : i ≠ j) :
    (l.set i a).getD j d = l.getD j d := by
  rw [List.getD_eq_getElem?_getD, List.getD_eq_getElem?_getD, List.getElem?_set_ne h]

theorem getD_set_self {α : Type} (l : List α) (i : Nat) (a d : α)
    (h : i < l.length) :
    (l.set i a).getD i d = a := by
  rw [List.getD_eq_getElem?_getD, List.getElem?_set_self h]
  rfl

theorem getLastD_append {α : Type} (l1 l2 : List α) (d : α) :
    (l1 ++ l2).getLastD d = l2.getLastD (l1.getLastD d) := by
  induction l1 generalizing d with
  | nil => rfl
  | cons a l1 ih =>
    rw [List.cons_append, List.getLastD_cons, List.getLastD_cons]
    exact ih a

theorem getD_length_sub_one {α : Type} (l : List α) (d : α) (h : l ≠ []) :
    l.getD (l.length - 1) d = l.getLastD d := by
  rw [List.getD_eq_getElem?_getD, List.getLastD_eq_getLast?,
    List.getLast?_eq_getElem?]

/-- Central construction for the amended claim C1: the assignment built from
an extended run (live configurations, then frozen tape) satisfies every
constraint family of `generateSAT`. -/
theorem generateSAT_satisfied_by_run (tm : TM) (ds : List Config)
    (hnodupS : tm.states.Nodup) (hnodupA : tm.alphabet.Nodup)
    (hL1 : 1 ≤ ds.length) (hLn : ds.length ≤ tm.word.length)
    (hhead : ds.head? = some tm.initConfig)
    (hchain : List.Chain' tm.Step ds)
    (hbounds : ∀ c ∈ ds, tm.InBounds c)
    (hreach : ∃ i, i < ds.length ∧ (cfgAt tm ds i).state = tm.acceptingState)
    (hdead : ds.length < tm.word.length →
      ∀ t ∈ tm.transitions (cfgAt tm ds (ds.length - 1)).state
          ((cfgAt tm ds (ds.length - 1)).tape.getD
            (cfgAt tm ds (ds.length - 1)).head ""),
        transOK tm (cfgAt tm ds (ds.length - 1)) t = false) :
    BForm.eval (runValuation tm ds) (generateSAT tm) = true := by
  have hcb : ∀ i, i < ds.length → tm.InBounds (cfgAt tm ds i) := by
    intro i hi
    rw [cfgAt, List.getD_eq_getElem ds _ hi]
    exact hbounds _ (List.getElem_mem hi)
  have hstep : ∀ i, i + 1 < ds.length →
      tm.Step (cfgAt tm ds i) (cfgAt tm ds (i + 1)) := by
    intro i hi
    have h2 := List.chain'_iff_get.mp hchain i (by omega)
    rw [cfgAt, cfgAt, List.getD_eq_getElem ds _ (by omega : i < ds.length),
      List.getD_eq_getElem ds _ hi]
    exact h2
  have hcfg0 : cfgAt tm ds 0 = tm.initConfig := by
    cases ds with
    | nil => simp at hL1
    | cons c rest =>
      simp only [List.head?_cons, Option.some_inj] at hhead
      rw [cfgAt]
      simpa using hhead
  have htlive : ∀ i, i ≤ ds.length - 1 →
      tapeAt tm ds i = (cfgAt tm ds i).tape := by
    intro i hi
    rw [tapeAt, cfgAt, Nat.min_eq_left hi]
  have htfrozen : ∀ i, ds.length - 1 ≤ i →
      tapeAt tm ds i = (cfgAt tm ds (ds.length - 1)).tape := by
    intro i hi
    rw [tapeAt, cfgAt, Nat.min_eq_right hi]
  rw [generateSAT, eval_andL, evalAll_eq_true]
  intro φ hφ
  simp only [formulasInitial, formulasNoMultipleStates, formulasReachAcceptingState,
    formulasNoMultipleCharacters, formulasNoMultipleHeadPositions,
    formulasValidTransitions, formulasNonHeadCharsNonModifiable,
    List.singleton_append, List.cons_append, List.nil_append,
    List.mem_cons, List.mem_singleton, List.not_mem_nil, or_false] at hφ
  rcases hφ with h | h | h | h | h | h | h
  · -- initial configuration
    subst h
    rw [eval_andL, evalAll_eq_true]
    intro ψ hψ
    simp only [List.cons_append, List.nil_append, List.mem_cons, List.mem_map,
      List.mem_range] at hψ
    rcases hψ with h1 | h1 | ⟨pos, hpos, h1⟩ <;> subst h1
    · rw [eval_bvar, runValuation_x]
      refine ⟨by omega, ?_⟩
      rw [hcfg0]
      rfl
    · rw [eval_bvar, runValuation_y]
      refine ⟨by omega, ?_⟩
      rw [hcfg0]
      rfl
    · rw [eval_bvar, runValuation_z]
      refine ⟨by omega, hpos, ?_⟩
      rw [htlive 0 (by omega), hcfg0]
      rfl
  · -- at most one state per step
    subst h
    rw [eval_andL, evalAll_eq_true]
    intro ψ hψ
    simp only [List.mem_flatMap, List.mem_map, List.mem_range,
      List.mem_range'_1] at hψ
    obtain ⟨step, hstepn, q1, hq1, q2, hq2, h1⟩ := hψ
    subst h1
    apply eval_bnot_pair
    rintro ⟨hx1, hx2⟩
    rw [runValuation_x] at hx1 hx2
    obtain ⟨_, e1⟩ := hx1
    obtain ⟨_, e2⟩ := hx2
    have hq2' : q2 < tm.states.length := by omega
    have e3 : tm.states[q1] = tm.states[q2] := by
      rw [← List.getD_eq_getElem tm.states "" hq1,
        ← List.getD_eq_getElem tm.states "" hq2', e1, e2]
    have := (List.Nodup.getElem_inj_iff hnodupS).mp e3
    omega
  · -- some step reaches the accepting state
    subst h
    rw [eval_orL, evalAny_eq_true]
    obtain ⟨i, hiL, hist⟩ := hreach
    refine ⟨.bvar (xName i tm.acceptingState), ?_, ?_⟩
    · rw [List.mem_map]
      exact ⟨i, List.mem_range.mpr (by omega), rfl⟩
    · rw [eval_bvar, runValuation_x]
      exact ⟨hiL, hist.symm⟩
  · -- at most one character per cell per step
    subst h
    rw [eval_andL, evalAll_eq_true]
    intro ψ hψ
    simp only [List.mem_flatMap, List.mem_map, List.mem_range,
      List.mem_range'_1] at hψ
    obtain ⟨step, hstepn, pos, hposn, c1, hc1, c2, hc2, h1⟩ := hψ
    subst h1
    apply eval_bnot_pair
    rintro ⟨hz1, hz2⟩
    rw [runValuation_z] at hz1 hz2
    obtain ⟨_, _, e1⟩ := hz1
    obtain ⟨_, _, e2⟩ := hz2
    have hc2' : c2 < tm.alphabet.length := by omega
    have e3 : tm.alphabet[c1] = tm.alphabet[c2] := by
      rw [← List.getD_eq_getElem tm.alphabet "" hc1,
        ← List.getD_eq_getElem tm.alphabet "" hc2', e1, e2]
    have := (List.Nodup.getElem_inj_iff hnodupA).mp e3
    omega
  · -- at most one head position per step
    subst h
    rw [eval_andL, evalAll_eq_true]
    intro ψ hψ
    simp only [List.mem_flatMap, List.mem_map, List.mem_range,
      List.mem_range'_1] at hψ
    obtain ⟨step, hstepn, p1, hp1, p2, hp2, h1⟩ := hψ
    subst h1
    apply eval_bnot_pair
    rintro ⟨hy1, hy2⟩
    rw [runValuation_y] at hy1 hy2
    obtain ⟨_, e1⟩ := hy1
    obtain ⟨_, e2⟩ := hy2
    omega
  · -- valid transitions
    subst h
    rw [eval_andL, evalAll_eq_true]
    intro ψ hψ
    simp only [List.mem_flatMap, List.mem_range] at hψ
    obtain ⟨step, hstepn, pos, hposn, state, hstate, char, hchar, hin⟩ := hψ
    by_cases hlen : (validTransConsequent tm step pos state char).length > 0
    · rw [if_pos hlen, List.mem_singleton] at hin
      subst hin
      apply eval_impl_triple
      intro hx hy hz
      rw [runValuation_x] at hx
      rw [runValuation_y] at hy
      rw [runValuation_z] at hz
      obtain ⟨hsL, hse⟩ := hx
      obtain ⟨_, hpe⟩ := hy
      obtain ⟨_, _, hce⟩ := hz
      by_cases hnext : step + 1 < ds.length
      · obtain ⟨t, htmem, hts, hth, hthlt, htt⟩ := hstep step hnext
        have hg : 0 ≤ (pos : Int) + t.2.2 ∧
            (pos : Int) + t.2.2 < (tm.word.length : Int) := by
          rw [hpe]
          omega
        rw [eval_orL, evalAny_eq_true]
        refine ⟨.andL [ .bvar (xName (step + 1) t.1),
          .bvar (yName (step + 1) (((pos : Int) + t.2.2).toNat)),
          .bvar (zName (step + 1) pos t.2.1) ], ?_, ?_⟩
        · rw [validTransConsequent, List.mem_filterMap]
          refine ⟨t, ?_, ?_⟩
          · rw [hse, hce, htlive step (by omega), hpe]
            exact htmem
          · rw [if_pos hg]
        · rw [eval_andL]
          have e1 : runValuation tm ds (xName (step + 1) t.1) = true := by
            rw [runValuation_x]
            exact ⟨hnext, hts.symm⟩
          have e2 : runValuation tm ds
              (yName (step + 1) (((pos : Int) + t.2.2).toNat)) = true := by
            rw [runValuation_y]
            refine ⟨hnext, ?_⟩
            rw [hpe]
            omega
          have e3 : runValuation tm ds (zName (step + 1) pos t.2.1) = true := by
            rw [runValuation_z]
            refine ⟨by omega, hposn, ?_⟩
            rw [htlive (step + 1) (by omega), htt, hpe]
            rw [getD_set_self]
            have hb := hcb step hsL
            rw [hb.2]
            exact hb.1
          simp [BForm.evalAll, BForm.eval, e1, e2, e3]
      · exfalso
        have hstepL : step = ds.length - 1 := by omega
        have hLlt : ds.length < tm.word.length := by omega
        have hcons : validTransConsequent tm step pos state char = [] := by
          rw [validTransConsequent, List.filterMap_eq_nil]
          intro t ht
          rw [hse, hce, htlive step (by omega), hpe, hstepL] at ht
          have hko := hdead hLlt t ht
          rw [transOK, decide_eq_false_iff_not] at hko
          rw [if_neg ?_]
          intro hg
          apply hko
          rw [← hstepL, ← hpe]
          exact hg
        rw [hcons] at hlen
        simp at hlen
    · rw [if_neg hlen] at hin
      cases hin
  · -- non-head characters are not modified
    subst h
    rw [eval_andL, evalAll_eq_true]
    intro ψ hψ
    simp only [List.mem_flatMap, List.mem_map, List.mem_range] at hψ
    obtain ⟨step, hstepn, pos, hposn, char, hcharA, h1⟩ := hψ
    subst h1
    apply eval_impl_notpair
    intro hy hz
    rw [← Bool.not_eq_true, runValuation_y] at hy
    rw [runValuation_z] at hz
    obtain ⟨_, _, hce⟩ := hz
    rw [runValuation_z]
    refine ⟨by omega, hposn, ?_⟩
    rcases Nat.lt_or_ge step (ds.length - 1) with hlt | hge
    · have hsL : step < ds.length := by omega
      have hpne : pos ≠ (cfgAt tm ds step).head := by
        intro hp
        exact hy ⟨hsL, hp⟩
      obtain ⟨t, _, _, _, _, htt⟩ := hstep step (by omega)
      rw [htlive (step + 1) (by omega), htt,
        getD_set_ne _ _ _ _ _ (fun hh2 => hpne hh2.symm)]
      rw [← htlive step (by omega)]
      exact hce
    · rw [htfrozen (step + 1) (by omega), ← htfrozen step hge]
      exact hce

theorem chain_to_chain' {α : Type} (R : α → α → Prop) (l : List α) (a : α)
    (h : List.Chain R a l) : List.Chain' R l := by
  cases l with
  | nil => exact List.chain'_nil
  | cons b l2 => exact (List.chain_cons.mp h).2

/-- C1 (amended): for a machine with duplicate-free state and alphabet lists,
if the machine has a valid accepting run on `w` visiting at most `|w|`
configurations and staying on the `|w|` cells of `w`, then the formula built
by `generateSAT` is satisfiable.  The converse direction of the original
claim is false (see the counterexample): a satisfying assignment need not
correspond to an accepting run, because stuck configurations impose no
transition constraint. -/
theorem claim_C1_sat_of_accepting_run (tm : TM)
    (hnodupS : tm.states.Nodup) (hnodupA : tm.alphabet.Nodup)
    (hacc : TM.AcceptsWithin tm tm.word.length) :
    ∃ v, BForm.eval v (generateSAT tm) = true := by
  obtain ⟨cs, hne, hhead, hchain, hlen, hbounds, clast, hlast, hco⟩ := hacc
  have hcs1 : 1 ≤ cs.length := List.length_pos.mpr hne
  have hclast_mem : clast ∈ cs := List.mem_of_getLast?_eq_some hlast
  have hclastD : cs.getLastD tm.initConfig = clast := by
    rw [List.getLastD_eq_getLast?, hlast]
    rfl
  have hcontlen := contRun_length tm (tm.word.length - cs.length)
    (cs.getLastD tm.initConfig)
  refine ⟨runValuation tm (cs ++ contRun tm (tm.word.length - cs.length)
      (cs.getLastD tm.initConfig)),
    generateSAT_satisfied_by_run tm _ hnodupS hnodupA ?_ ?_ ?_ ?_ ?_ ?_ ?_⟩
  · rw [List.length_append]
    omega
  · rw [List.length_append]
    omega
  · cases cs with
    | nil => exact absurd rfl hne
    | cons c rest => simpa using hhead
  · rw [List.chain'_append]
    refine ⟨hchain, chain_to_chain' _ _ _ (contRun_chain tm _ _), ?_⟩
    intro x hx y hy
    have hx2 : x = clast := by
      rw [Option.mem_def, hlast] at hx
      exact (Option.some_inj.mp hx).symm
    have hchainC := contRun_chain tm (tm.word.length - cs.length)
      (cs.getLastD tm.initConfig)
    cases hl2 : contRun tm (tm.word.length - cs.length)
        (cs.getLastD tm.initConfig) with
    | nil => rw [hl2] at hy; simp at hy
    | cons y2 rest2 =>
      rw [hl2] at hy hchainC
      simp only [List.head?_cons, Option.mem_def, Option.some_inj] at hy
      have hr := (List.chain_cons.mp hchainC).1
      rw [hclastD] at hr
      rw [hx2, ← hy]
      exact hr
  · intro c hc
    rcases List.mem_append.mp hc with h1 | h1
    · exact hbounds c h1
    · refine contRun_bounds tm _ _ ?_ c h1
      rw [hclastD]
      exact hbounds clast hclast_mem
  · refine ⟨cs.length - 1, by rw [List.length_append]; omega, ?_⟩
    have : cfgAt tm (cs ++ contRun tm (tm.word.length - cs.length)
        (cs.getLastD tm.initConfig)) (cs.length - 1) = clast := by
      rw [cfgAt, List.getD_eq_getElem?_getD,
        List.getElem?_append_left (by omega : cs.length - 1 < cs.length),
        ← List.getD_eq_getElem?_getD, getD_length_sub_one cs _ hne, hclastD]
    rw [this]
    exact hco
  · intro hLlt t ht
    have hdsne : cs ++ contRun tm (tm.word.length - cs.length)
        (cs.getLastD tm.initConfig) ≠ [] := by
      intro he
      rw [List.append_eq_nil] at he
      exact hne he.1
    have hlastds : cfgAt tm (cs ++ contRun tm (tm.word.length - cs.length)
        (cs.getLastD tm.initConfig))
        ((cs ++ contRun tm (tm.word.length - cs.length)
          (cs.getLastD tm.initConfig)).length - 1) =
        (contRun tm (tm.word.length - cs.length)
          (cs.getLastD tm.initConfig)).getLastD (cs.getLastD tm.initConfig) := by
      rw [cfgAt, getD_length_sub_one _ _ hdsne, getLastD_append]
    have hlen2 : (contRun tm (tm.word.length - cs.length)
        (cs.getLastD tm.initConfig)).length < tm.word.length - cs.length := by
      rw [List.length_append] at hLlt
      omega
    have hdeadf := contRun_dead tm (tm.word.length - cs.length)
      (cs.getLastD tm.initConfig) hlen2
    rw [hlastds] at ht ⊢
    have hnt := List.find?_eq_none.mp hdeadf t ht
    cases hb : transOK tm ((contRun tm (tm.word.length - cs.length)
        (cs.getLastD tm.initConfig)).getLastD (cs.getLastD tm.initConfig)) t with
    | false => rfl
    | true => exact absurd hb hnt

/-- Witness machine for C1: accepts its two-letter word by one right move. -/
def tmAccepts : TM :=
  { alphabet := ["a"], states := ["A", "B"],
    transitions := fun q c => if q = "A" ∧ c = "a" then [("B", "a", 1)] else [],
    initState := "A", acceptingState := "B", word := ["a", "a"] }

theorem claim_C1_sat_of_accepting_run_witness :
    (tmAccepts.states.Nodup ∧ tmAccepts.alphabet.Nodup ∧
     TM.AcceptsWithin tmAccepts tmAccepts.word.length) ∧
    (∃ v, BForm.eval v (generateSAT tmAccepts) = true) := by
  have h1 : tmAccepts.states.Nodup := by decide
  have h2 : tmAccepts.alphabet.Nodup := by decide
  have h3 : TM.AcceptsWithin tmAccepts tmAccepts.word.length := by
    refine ⟨[⟨"A", 0, ["a", "a"]⟩, ⟨"B", 1, ["a", "a"]⟩], by simp, rfl, ?_,
      by simp [tmAccepts], ?_, ⟨"B", 1, ["a", "a"]⟩, rfl, rfl⟩
    · rw [List.chain'_cons]
      refine ⟨⟨("B", "a", 1), ?_, rfl, rfl, ?_, rfl⟩, List.chain'_singleton _⟩
      · simp [tmAccepts]
      · simp [tmAccepts]
    · intro c hc
      rcases List.mem_cons.mp hc with hq | hq
      · subst hq
        exact ⟨by simp [tmAccepts], by simp [tmAccepts]⟩
      · rcases List.mem_cons.mp hq with hq2 | hq2
        · subst hq2
          exact ⟨by simp [tmAccepts], by simp [tmAccepts]⟩
        · cases hq2
  exact ⟨⟨h1, h2, h3⟩, claim_C1_sat_of_accepting_run tmAccepts h1 h2 h3⟩

/-! ### Nonogram encoding (`nonogram.py`)

Formulas are SMT terms over an uninterpreted cell function (`f` for the
first query, `g` for the uniqueness query), integer start variables named by
`StartIndex`, and the single bound variable `x` of the `ForAll` quantifiers.
The external solver (`model`) is abstracted as an oracle from formulas to
results. -/

inductive FSym where
  | f : FSym
  | g : FSym

inductive ITerm where
  | const : Int → ITerm
  | svar : String → ITerm
  | x : ITerm
  | add : ITerm → ITerm → ITerm

inductive NForm where
  | ge : ITerm → ITerm → NForm
  | lt : ITerm → ITerm → NForm
  | le : ITerm → ITerm → NForm
  | feq : FSym → ITerm → ITerm → Bool → NForm
  | fne : Bool → FSym → ITerm → ITerm → NForm
  | sumIfEq : FSym → List (ITerm × ITerm) → Int → NForm
  | andL : List NForm → NForm
  | orL : List NForm → NForm
  | imp : NForm → NForm → NForm
  | fall : NForm → NForm

/-- An assignment: an interpretation of the two cell-function symbols and of
the named integer variables. -/
structure NAsg where
  fI : FSym → Int → Int → Bool
  iv : String → Int

def ITerm.eval (a : NAsg) (xv : Int) : ITerm → Int
  | .const n => n
  | .svar s => a.iv s
  | .x => xv
  | .add t u => ITerm.eval a xv t + ITerm.eval a xv u

mutual

def NForm.eval (a : NAsg) (xv : Int) : NForm → Prop
  | .ge t u => ITerm.eval a xv t ≥ ITerm.eval a xv u
  | .lt t u => ITerm.eval a xv t < ITerm.eval a xv u
  | .le t u => ITerm.eval a xv t ≤ ITerm.eval a xv u
  | .feq s t u b => a.fI s (ITerm.eval a xv t) (ITerm.eval a xv u) = b
  | .fne b s t u => b ≠ a.fI s (ITerm.eval a xv t) (ITerm.eval a xv u)
  | .sumIfEq s ps k =>
      ((ps.map fun p => if a.fI s (ITerm.eval a xv p.1) (ITerm.eval a xv p.2)
        then (1 : Int) else 0).sum) = k
  | .andL l => NForm.evalConj a xv l
  | .orL l => NForm.evalDisj a xv l
  | .imp φ ψ => NForm.eval a xv φ → NForm.eval a xv ψ
  | .fall φ => ∀ w : Int, NForm.eval a w φ

def NForm.evalConj (a : NAsg) (xv : Int) : List NForm → Prop
  | [] => True
  | φ :: l => NForm.eval a xv φ ∧ NForm.evalConj a xv l

def NForm.evalDisj (a : NAsg) (xv : Int) : List NForm → Prop
  | [] => False
  | φ :: l => NForm.eval a xv φ ∨ NForm.evalDisj a xv l

end

theorem evalConj_iff (a : NAsg) (xv : Int) (l : List NForm) :
    NForm.evalConj a xv l ↔ ∀ φ ∈ l, NForm.eval a xv φ := by
  induction l with
  | nil => simp [NForm.evalConj]
  | cons φ l ih => simp [NForm.evalConj, ih]

theorem evalDisj_iff (a : NAsg) (xv : Int) (l : List NForm) :
    NForm.evalDisj a xv l ↔ ∃ φ ∈ l, NForm.eval a xv φ := by
  induction l with
  | nil => simp [NForm.evalDisj]
  | cons φ l ih => simp [NForm.evalDisj, ih]

/-- `NonogramFormulasGenerator._prepare_vectors`: pair each clue length with
its named start variable. -/
def prepare_vectors (vectors : List (List Int)) (vector_name : String) :
    List (List (ITerm × Int)) :=
  (List.range vectors.length).map fun vector =>
    (List.range (vectors.getD vector []).length).map fun index =>
      (ITerm.svar (startIndexName vector_name vector index),
       (vectors.getD vector []).getD index 0)

/-- The cell atom `f(row_nr, t) == b` used by the row formulas. -/
def rowCell (sym : FSym) (row_nr : Nat) (t : ITerm) (b : Bool) : NForm :=
  .feq sym (.const (row_nr : Int)) t b

/-- The cell atom `f(t, col_nr) == b` used by the column formulas. -/
def colCell (sym : FSym) (col_nr : Nat) (t : ITerm) (b : Bool) : NForm :=
  .feq sym t (.const (col_nr : Int)) b

/-- The formulas emitted for the `i`-th block of one vector by
`_generate_sequence_rows_formulas` / `_generate_sequence_columns_formulas`:
the block cells are true, the cell after the block is false, the first block
starts at a nonnegative position, later blocks start after the previous
block with a gap, and the last block ends within the grid bound. -/
def seqItemFormulas (cell : ITerm → Bool → NForm) (bound : Nat) (m i : Nat)
    (prev cur : ITerm × Int) : List NForm :=
  [ .fall (.imp (.andL [.ge .x cur.1, .lt .x (.add cur.1 (.const cur.2))])
      (cell .x true)),
    cell (.add cur.1 (.const cur.2)) false ]
  ++ (if i = 0 then [.ge cur.1 (.const 0)]
      else [.lt (.add prev.1 (.const prev.2)) cur.1])
  ++ (if i = m - 1 then [.le (.add cur.1 (.const cur.2)) (.const (bound : Int))]
      else [])

/-- `NonogramFormulasGenerator._generate_sequence_rows_formulas`. -/
def seq_rows_formulas (ncols : Nat) (rows2 : List (List (ITerm × Int)))
    (sym : FSym) : NForm :=
  .andL ((List.range rows2.length).map fun row_nr =>
    .andL ((List.range (rows2.getD row_nr []).length).flatMap fun i =>
      seqItemFormulas (rowCell sym row_nr) ncols (rows2.getD row_nr []).length i
        ((rows2.getD row_nr []).getD (i - 1) (.const 0, 0))
        ((rows2.getD row_nr []).getD i (.const 0, 0))))

/-- `NonogramFormulasGenerator._generate_sequence_columns_formulas`. -/
def seq_columns_formulas (nrows : Nat) (cols2 : List (List (ITerm × Int)))
    (sym : FSym) : NForm :=
  .andL ((List.range cols2.length).map fun col_nr =>
    .andL ((List.range (cols2.getD col_nr []).length).flatMap fun i =>
      seqItemFormulas (colCell sym col_nr) nrows (cols2.getD col_nr []).length i
        ((cols2.getD col_nr []).getD (i - 1) (.const 0, 0))
        ((cols2.getD col_nr []).getD i (.const 0, 0))))

/-- `NonogramFormulasGenerator._generate_sum_check_rows`. -/
def sum_check_rows (ncols : Nat) (rows2 : List (List (ITerm × Int)))
    (sym : FSym) : NForm :=
  .andL ((List.range rows2.length).map fun row_nr =>
    .sumIfEq sym ((List.range ncols).map fun col_nr =>
        (ITerm.const (Int.ofNat row_nr), ITerm.const (Int.ofNat col_nr)))
      (((rows2.getD row_nr []).map fun p => p.2).sum))

/-- `NonogramFormulasGenerator._generate_sum_check_columns`. -/
def sum_check_columns (nrows : Nat) (cols2 : List (List (ITerm × Int)))
    (sym : FSym) : NForm :=
  .andL ((List.range cols2.length).map fun col_nr =>
    .sumIfEq sym ((List.range nrows).map fun x =>
        (ITerm.const (Int.ofNat x), ITerm.const (Int.ofNat col_nr)))
      (((cols2.getD col_nr []).map fun p => p.2).sum))

/-- `NonogramFormulasGenerator.generate_all_formulas`. -/
def generate_all_formulas (rows cols : List (List Int)) (sym : FSym) : NForm :=
  .andL [seq_rows_formulas cols.length (prepare_vectors rows "row") sym,
         sum_check_rows cols.length (prepare_vectors rows "row") sym,
         sum_check_columns rows.length (prepare_vectors cols "col") sym,
         seq_columns_formulas rows.length (prepare_vectors cols "col") sym]

/-- Result of the external `model` call: `["unsat"]` or a model. -/
inductive ModelResult where
  | unsat : ModelResult
  | found : NAsg → ModelResult

/-- The second solver query of `get_solution`: some grid cell differs from
the first model, and the puzzle formulas hold for `g`. -/
def second_query (mF : NAsg) (rows cols : List (List Int)) : NForm :=
  .andL [.orL ((List.range rows.length).flatMap fun row =>
      (List.range cols.length).map fun col =>
        NForm.fne (mF.fI .f (Int.ofNat row) (Int.ofNat col)) .g
          (.const (Int.ofNat row)) (.const (Int.ofNat col))),
    generate_all_formulas rows cols .g]

/-- `get_solution`, with the external solver abstracted as an oracle `mdl`. -/
def get_solution (mdl : NForm → ModelResult) (rows cols : List (List Int)) :
    String :=
  match mdl (generate_all_formulas rows cols .f) with
  | .unsat => "unsolvable"
  | .found mF =>
    match mdl (second_query mF rows cols) with
    | .found _ => "many solutions"
    | .unsat =>
      (List.range rows.length).foldl (fun sol row =>
        ((List.range cols.length).foldl (fun s col =>
          s.push (if mF.fI .f (Int.ofNat row) (Int.ofNat col) then '#' else '.')) sol) ++
        (if row ≠ rows.length - 1 then "\n" else "")) ""

/-! ### Claim C3: the `unsolvable` answer -/

theorem foldl_push_data {α : Type} (ch : α → Char) :
    ∀ (l : List α) (s : String),
      (l.foldl (fun s a => s.push (ch a)) s).data = s.data ++ l.map ch := by
  intro l
  induction l with
  | nil => intro s; simp
  | cons a l ih =>
    intro s
    rw [List.foldl_cons, ih, String.data_push]
    simp

theorem grid_chars_aux (mF : NAsg) (R C : Nat) :
    ∀ (l : List Nat) (s : String), (∀ ch ∈ s.data, ch ∈ (['#', '.', '\n'] : List Char)) →
      ∀ ch ∈ (l.foldl (fun sol row =>
        ((List.range C).foldl (fun s col =>
          s.push (if mF.fI .f (Int.ofNat row) (Int.ofNat col) then '#' else '.')) sol) ++
        (if row ≠ R - 1 then "\n" else "")) s).data,
        ch ∈ (['#', '.', '\n'] : List Char) := by
  intro l
  induction l with
  | nil => intro s hs; exact hs
  | cons r l ih =>
    intro s hs
    rw [List.foldl_cons]
    apply ih
    intro ch hch
    rw [String.data_append, foldl_push_data] at hch
    rcases List.mem_append.mp hch with h1 | h1
    · rcases List.mem_append.mp h1 with h2 | h2
      · exact hs ch h2
      · rw [List.mem_map] at h2
        obtain ⟨col, _, he⟩ := h2
        by_cases hf : mF.fI .f (Int.ofNat r) (Int.ofNat col) = true
        · rw [if_pos hf] at he
          rw [← he]
          decide
        · rw [if_neg hf] at he
          rw [← he]
          decide
    · by_cases hr : r ≠ R - 1
      · rw [if_pos hr] at h1
        rw [show ("\n" : String).data = ['\n'] from rfl] at h1
        simp only [List.mem_singleton] at h1
        rw [h1]
        decide
      · rw [if_neg hr] at h1
        rw [show ("" : String).data = [] from rfl] at h1
        cases h1

theorem grid_ne_of_missing_char (s t : String)
    (hs : ∀ ch ∈ s.data, ch ∈ (['#', '.', '\n'] : List Char))
    (ht : ∃ ch ∈ t.data, ch ∉ (['#', '.', '\n'] : List Char)) : s ≠ t := by
  intro he
  obtain ⟨ch, hmem, hnot⟩ := ht
  rw [← he] at hmem
  exact hnot (hs ch hmem)

/-- C3: `get_solution` answers `unsolvable` exactly when the external solver
reports the puzzle formula unsatisfiable; the satisfiability decision itself
is entirely the oracle's (the statement holds for every oracle `mdl`). -/
theorem claim_C3_unsolvable_iff (mdl : NForm → ModelResult)
    (rows cols : List (List Int)) :
    get_solution mdl rows cols = "unsolvable" ↔
      mdl (generate_all_formulas rows cols .f) = ModelResult.unsat := by
  rw [get_solution]
  cases hF : mdl (generate_all_formulas rows cols .f) with
  | unsat => simp
  | found mF =>
    dsimp only
    cases hG : mdl (second_query mF rows cols) with
    | found m =>
      dsimp only
      constructor
      · intro h
        exact absurd h (by decide)
      · intro h
        cases h
    | unsat =>
      dsimp only
      constructor
      · intro h
        exfalso
        exact grid_ne_of_missing_char _ "unsolvable"
          (grid_chars_aux mF rows.length cols.length (List.range rows.length) "" (by simp))
          ⟨'u', by decide, by decide⟩ h
      · intro h
        cases h

/-! ### Claim C7: the unique-solution grid rendering -/

/-- Lines separated by a newline character, with no trailing newline. -/
def joinLines : List (List Char) → List Char
  | [] => []
  | [l] => l
  | l :: ls => l ++ '\n' :: joinLines ls

theorem joinLines_cons (l : List Char) (ls : List (List Char)) (h : ls ≠ []) :
    joinLines (l :: ls) = l ++ '\n' :: joinLines ls := by
  cases ls with
  | nil => exact absurd rfl h
  | cons l2 ls2 => rfl

theorem flatten_newline_append (last : List Char) :
    ∀ (L : List (List Char)),
      (L.map (fun l => l ++ ['\n'])).flatten ++ last = joinLines (L ++ [last]) := by
  intro L
  induction L with
  | nil => rfl
  | cons l L ih =>
    rw [List.map_cons, List.flatten_cons, List.cons_append,
      joinLines_cons _ _ (by simp), ← ih]
    simp

/-- The character grid of the first model, one line per row. -/
def gridLines (mF : NAsg) (R C : Nat) : List (List Char) :=
  (List.range R).map fun r => (List.range C).map fun c =>
    if mF.fI .f (Int.ofNat r) (Int.ofNat c) then '#' else '.'

theorem grid_fold_data (mF : NAsg) (R C : Nat) :
    ∀ (l : List Nat) (s : String), (∀ r ∈ l, r ≠ R - 1) →
      (l.foldl (fun sol row =>
        ((List.range C).foldl (fun s col =>
          s.push (if mF.fI .f (Int.ofNat row) (Int.ofNat col) then '#' else '.')) sol) ++
        (if row ≠ R - 1 then "\n" else "")) s).data =
      s.data ++ (l.map fun r => ((List.range C).map fun c =>
        if mF.fI .f (Int.ofNat r) (Int.ofNat c) then '#' else '.') ++ ['\n']).flatten := by
  intro l
  induction l with
  | nil => intro s _; simp
  | cons r l ih =>
    intro s hs
    rw [List.foldl_cons, ih _ (fun r' hr' => hs r' (List.mem_cons_of_mem r hr')),
      String.data_append, foldl_push_data, if_pos (hs r (List.mem_cons_self r l))]
    rw [show ("\n" : String).data = ['\n'] from rfl]
    simp

/-- C7: whenever the first query finds a model and the uniqueness query is
unsatisfiable, `get_solution` returns exactly `len(rows)` lines separated by
newlines with no trailing newline, each line of exactly `len(cols)`
characters, the character at `(row, col)` being `#` when the first model
makes the cell true and `.` otherwise. -/
theorem claim_C7_unique_solution_grid (mdl : NForm → ModelResult)
    (rows cols : List (List Int)) (mF : NAsg)
    (hF : mdl (generate_all_formulas rows cols .f) = ModelResult.found mF)
    (hG : mdl (second_query mF rows cols) = ModelResult.unsat) :
    (get_solution mdl rows cols).data =
      joinLines (gridLines mF rows.length cols.length) ∧
    (gridLines mF rows.length cols.length).length = rows.length ∧
    (∀ r < rows.length,
      ((gridLines mF rows.length cols.length).getD r []).length = cols.length ∧
      ∀ c < cols.length,
        ((gridLines mF rows.length cols.length).getD r []).getD c ' ' =
          (if mF.fI .f (Int.ofNat r) (Int.ofNat c) then '#' else '.')) := by
  have hline : ∀ r < rows.length,
      (gridLines mF rows.length cols.length).getD r [] =
        (List.range cols.length).map fun c =>
          if mF.fI .f (Int.ofNat r) (Int.ofNat c) then '#' else '.' := by
    intro r hr
    rw [gridLines, List.getD_eq_getElem?_getD, List.getElem?_map,
      List.getElem?_range hr]
    rfl
  refine ⟨?_, by simp [gridLines], ?_⟩
  · rw [get_solution, hF]
    dsimp only
    rw [hG]
    dsimp only
    cases hR : rows.length with
    | zero => simp [gridLines, joinLines]
    | succ m =>
      rw [List.range_succ, List.foldl_append, List.foldl_cons, List.foldl_nil,
        String.data_append, foldl_push_data, if_neg (by omega)]
      rw [grid_fold_data mF (m + 1) cols.length (List.range m) ""
        (by intro r hr; rw [List.mem_range] at hr; omega)]
      rw [show ("" : String).data = [] from rfl]
      rw [gridLines, List.range_succ, List.map_append]
      simp only [List.nil_append, List.append_nil, List.map_singleton]
      have hj := flatten_newline_append
        ((List.range cols.length).map fun c =>
          if mF.fI .f (Int.ofNat m) (Int.ofNat c) then '#' else '.')
        ((List.range m).map fun r => (List.range cols.length).map fun c =>
          if mF.fI .f (Int.ofNat r) (Int.ofNat c) then '#' else '.')
      rw [List.map_map] at hj
      simp only [Function.comp_def] at hj
      rw [hj]
  · intro r hr
    rw [hline r hr]
    refine ⟨by simp, ?_⟩
    intro c hc
    rw [List.getD_eq_getElem?_getD, List.getElem?_map, List.getElem?_range hc]
    rfl

/-- The all-false model used by the nonogram witnesses. -/
def mFw : NAsg :=
  { fI := fun _ _ _ => false, iv := fun _ => 0 }

/-- A concrete oracle: reports the uniqueness query (whose first conjunct is
the disjunction of cell differences) unsatisfiable and returns the all-false
model for anything else. -/
def oracleW : NForm → ModelResult :=
  fun φ => match φ with
  | .andL (.orL _ :: _) => .unsat
  | _ => .found mFw

theorem claim_C7_unique_solution_grid_witness :
    (oracleW (generate_all_formulas [[]] [[]] .f) = ModelResult.found mFw ∧
     oracleW (second_query mFw [[]] [[]]) = ModelResult.unsat) ∧
    ((get_solution oracleW [[]] [[]]).data =
      joinLines (gridLines mFw ([[]] : List (List Int)).length
        ([[]] : List (List Int)).length) ∧
    (gridLines mFw ([[]] : List (List Int)).length
        ([[]] : List (List Int)).length).length = ([[]] : List (List Int)).length ∧
    (∀ r < ([[]] : List (List Int)).length,
      ((gridLines mFw ([[]] : List (List Int)).length
          ([[]] : List (List Int)).length).getD r []).length =
        ([[]] : List (List Int)).length ∧
      ∀ c < ([[]] : List (List Int)).length,
        ((gridLines mFw ([[]] : List (List Int)).length
            ([[]] : List (List Int)).length).getD r []).getD c ' ' =
          (if mFw.fI .f (Int.ofNat r) (Int.ofNat c) then '#' else '.'))) :=
  ⟨⟨rfl, rfl⟩, claim_C7_unique_solution_grid oracleW [[]] [[]] mFw rfl rfl⟩

/-! ### Claim C8: the `many solutions` answer -/

theorem neval_andL (a : NAsg) (xv : Int) (l : List NForm) :
    NForm.eval a xv (.andL l) = NForm.evalConj a xv l := rfl

theorem neval_orL (a : NAsg) (xv : Int) (l : List NForm) :
    NForm.eval a xv (.orL l) = NForm.evalDisj a xv l := rfl

/-- A second satisfying assignment: the puzzle formulas hold for `g` and the
assignment differs from the first model on some cell of the grid; cells
outside the grid do not count. -/
def SecondSolution (mF : NAsg) (rows cols : List (List Int)) : Prop :=
  ∃ a : NAsg, NForm.eval a 0 (generate_all_formulas rows cols .g) ∧
    ∃ r < rows.length, ∃ c < cols.length,
      mF.fI .f (Int.ofNat r) (Int.ofNat c) ≠ a.fI .g (Int.ofNat r) (Int.ofNat c)

theorem eval_second_query (mF : NAsg) (rows cols : List (List Int)) (a : NAsg) :
    NForm.eval a 0 (second_query mF rows cols) ↔
      ((∃ r < rows.length, ∃ c < cols.length,
        mF.fI .f (Int.ofNat r) (Int.ofNat c) ≠ a.fI .g (Int.ofNat r) (Int.ofNat c)) ∧
       NForm.eval a 0 (generate_all_formulas rows cols .g)) := by
  rw [second_query, neval_andL]
  constructor
  · intro h
    obtain ⟨hd, hg, -⟩ := h
    rw [neval_orL, evalDisj_iff] at hd
    obtain ⟨φ, hφ, he⟩ := hd
    simp only [List.mem_flatMap, List.mem_map, List.mem_range] at hφ
    obtain ⟨r, hr, c, hc, hφe⟩ := hφ
    subst hφe
    exact ⟨⟨r, hr, c, hc, he⟩, hg⟩
  · rintro ⟨⟨r, hr, c, hc, hne⟩, hg⟩
    refine ⟨?_, hg, trivial⟩
    rw [neval_orL, evalDisj_iff]
    refine ⟨NForm.fne (mF.fI .f (Int.ofNat r) (Int.ofNat c)) .g
      (.const (Int.ofNat r)) (.const (Int.ofNat c)), ?_, hne⟩
    simp only [List.mem_flatMap, List.mem_map, List.mem_range]
    exact ⟨r, hr, c, hc, rfl⟩

/-- C8: assuming the oracle answers the uniqueness query soundly and
completely, `get_solution` answers `many solutions` exactly when the puzzle
formula has a second satisfying assignment differing from the first model on
some cell inside the grid. -/
theorem claim_C8_many_solutions_iff (mdl : NForm → ModelResult)
    (rows cols : List (List Int)) (mF : NAsg)
    (hF : mdl (generate_all_formulas rows cols .f) = ModelResult.found mF)
    (hsound : ∀ m, mdl (second_query mF rows cols) = ModelResult.found m →
      NForm.eval m 0 (second_query mF rows cols))
    (hcomplete : mdl (second_query mF rows cols) = ModelResult.unsat →
      ∀ a, ¬ NForm.eval a 0 (second_query mF rows cols)) :
    get_solution mdl rows cols = "many solutions" ↔
      SecondSolution mF rows cols := by
  rw [get_solution, hF]
  dsimp only
  cases hG : mdl (second_query mF rows cols) with
  | found m =>
    dsimp only
    constructor
    · intro _
      have h2 := (eval_second_query mF rows cols m).mp (hsound m hG)
      exact ⟨m, h2.2, h2.1⟩
    · intro _
      rfl
  | unsat =>
    dsimp only
    constructor
    · intro h
      exact absurd h (grid_ne_of_missing_char _ "many solutions"
        (grid_chars_aux mF rows.length cols.length (List.range rows.length) "" (by simp))
        ⟨'m', by decide, by decide⟩)
    · rintro ⟨a, hga, hdiff⟩
      exact absurd ((eval_second_query mF rows cols a).mpr ⟨hdiff, hga⟩)
        (hcomplete hG a)

theorem claim_C8_many_solutions_iff_witness :
    (oracleW (generate_all_formulas [] [] .f) = ModelResult.found mFw ∧
     (∀ m, oracleW (second_query mFw [] []) = ModelResult.found m →
       NForm.eval m 0 (second_query mFw [] [])) ∧
     (oracleW (second_query mFw [] []) = ModelResult.unsat →
       ∀ a, ¬ NForm.eval a 0 (second_query mFw [] []))) ∧
    (get_solution oracleW [] [] = "many solutions" ↔ SecondSolution mFw [] []) := by
  have h1 : oracleW (generate_all_formulas [] [] .f) = ModelResult.found mFw := rfl
  have h2 : ∀ m, oracleW (second_query mFw [] []) = ModelResult.found m →
      NForm.eval m 0 (second_query mFw [] []) := by
    intro m hm
    cases hm
  have h3 : oracleW (second_query mFw [] []) = ModelResult.unsat →
      ∀ a, ¬ NForm.eval a 0 (second_query mFw [] []) := by
    intro _ a ha
    have := (eval_second_query mFw [] [] a).mp ha
    obtain ⟨⟨r, hr, -⟩, -⟩ := this
    simp at hr
  exact ⟨⟨h1, h2, h3⟩, claim_C8_many_solutions_iff oracleW [] [] mFw h1 h2 h3⟩

/-! ### Claim C2: the nonogram formulas versus maximal runs -/

/-- The maximal runs of `true` cells of a Boolean list, in order: the list
of lengths of the maximal contiguous blocks of `true` entries.  This is the
specification-side notion of "row/column clue satisfaction". -/
def runs : List Bool → List Nat
  | [] => []
  | false :: l => runs l
  | true :: l =>
      ((l.takeWhile (fun b => b)).length + 1) :: runs (l.dropWhile (fun b => b))
termination_by l => l.length
decreasing_by
  all_goals simp only [List.length_cons]
  · omega
  · have := (List.dropWhile_sublist (l := l) (fun b => b)).length_le
    omega

/-- The row of the grid of a cell function `w` seen through the
`len(rows) x len(cols)` window. -/
def gridRow (w : Int → Int → Bool) (ncols r : Nat) : List Bool :=
  (List.range ncols).map fun c => w (Int.ofNat r) (Int.ofNat c)

/-- The column of the grid of a cell function `w` seen through the
`len(rows) x len(cols)` window. -/
def gridCol (w : Int → Int → Bool) (nrows c : Nat) : List Bool :=
  (List.range nrows).map fun r => w (Int.ofNat r) (Int.ofNat c)

/-- Specification-side statement of claim C2: in every row and in every
column of the grid, the maximal runs of true cells, read in order, have
exactly the lengths given by the clue lists. -/
def RunsMatch (rows cols : List (List Int)) (w : Int → Int → Bool) : Prop :=
  (∀ r < rows.length,
    (runs (gridRow w cols.length r)).map (fun x => Int.ofNat x) = rows.getD r []) ∧
  (∀ c < cols.length,
    (runs (gridCol w rows.length c)).map (fun x => Int.ofNat x) = cols.getD c [])

theorem runs_nil : runs [] = [] := by
  simp [runs]

theorem runs_false_cons (l : List Bool) : runs (false :: l) = runs l := by
  simp [runs]

theorem runs_true_cons (l : List Bool) :
    runs (true :: l) =
      ((l.takeWhile (fun b => b)).length + 1) :: runs (l.dropWhile (fun b => b)) := by
  simp [runs]

theorem runs_all_false : ∀ l : List Bool, (∀ b ∈ l, b = false) → runs l = [] := by
  intro l
  induction l with
  | nil => intro _; exact runs_nil
  | cons b t ih =>
    intro h
    have hb : b = false := h b (List.mem_cons_self b t)
    subst hb
    rw [runs_false_cons]
    exact ih fun x hx => h x (List.mem_cons_of_mem _ hx)

theorem takeWhile_replicate_true_append (L : List Bool) :
    ∀ k, (List.replicate k true ++ L).takeWhile (fun b => b) =
      List.replicate k true ++ L.takeWhile (fun b => b) := by
  intro k
  induction k with
  | zero => simp
  | succ k ih =>
    rw [List.replicate_succ, List.cons_append, List.takeWhile_cons]
    simp only [ih]
    rfl

theorem dropWhile_replicate_true_append (L : List Bool) :
    ∀ k, (List.replicate k true ++ L).dropWhile (fun b => b) =
      L.dropWhile (fun b => b) := by
  intro k
  induction k with
  | zero => simp
  | succ k ih =>
    rw [List.replicate_succ, List.cons_append, List.dropWhile_cons]
    simpa using ih

theorem runs_replicate_false_append (L : List Bool) :
    ∀ g, runs (List.replicate g false ++ L) = runs L := by
  intro g
  induction g with
  | zero => simp
  | succ g ih =>
    rw [List.replicate_succ, List.cons_append, runs_false_cons]
    exact ih

theorem runs_replicate_true_append (L : List Bool) (k : Nat) (hk : 1 ≤ k)
    (hL : L = [] ∨ L.head? = some false) :
    runs (List.replicate k true ++ L) = k :: runs L := by
  have htw : L.takeWhile (fun b => b) = [] := by
    rcases hL with h | h
    · subst h; rfl
    · cases L with
      | nil => rfl
      | cons b t =>
        simp only [List.head?_cons, Option.some_inj] at h
        subst h
        rw [List.takeWhile_cons]
        rfl
  have hdw : L.dropWhile (fun b => b) = L := by
    rcases hL with h | h
    · subst h; rfl
    · cases L with
      | nil => rfl
      | cons b t =>
        simp only [List.head?_cons, Option.some_inj] at h
        subst h
        rw [List.dropWhile_cons]
        rfl
  obtain ⟨k', rfl⟩ : ∃ k', k = k' + 1 := ⟨k - 1, by omega⟩
  rw [List.replicate_succ, List.cons_append, runs_true_cons,
    takeWhile_replicate_true_append, dropWhile_replicate_true_append,
    htw, hdw]
  simp

theorem sum_runs_aux :
    ∀ (n : Nat) (l : List Bool), l.length ≤ n →
      (runs l).sum = l.countP (fun b => b) := by
  intro n
  induction n with
  | zero =>
    intro l hl
    have h0 : l = [] := List.length_eq_zero.mp (by omega)
    subst h0
    simp [runs_nil]
  | succ n ih =>
    intro l hl
    match l with
    | [] => simp [runs_nil]
    | false :: t =>
      rw [runs_false_cons, ih t (by simp at hl; omega), List.countP_cons]
      simp
    | true :: t =>
      rw [runs_true_cons, List.sum_cons]
      have hlen := (List.dropWhile_sublist (l := t) (fun b => b)).length_le
      rw [ih (t.dropWhile fun b => b) (by simp at hl; omega)]
      have htk : (t.takeWhile fun b => b).countP (fun b => b) =
          (t.takeWhile fun b => b).length :=
        List.countP_eq_length.mpr fun a ha => List.mem_takeWhile_imp ha
      have hsplit : t.countP (fun b => b) =
          (t.takeWhile fun b => b).countP (fun b => b) +
          (t.dropWhile fun b => b).countP (fun b => b) := by
        conv_lhs => rw [← List.takeWhile_append_dropWhile (p := fun b => b) (l := t)]
        rw [List.countP_append]
      rw [List.countP_cons]
      simp only [if_true]
      simp only [htk] at hsplit
      omega

theorem sum_runs (l : List Bool) : (runs l).sum = l.countP (fun b => b) :=
  sum_runs_aux l.length l (Nat.le_refl _)

theorem runs_of_blocks :
    ∀ (bs : List (Nat × Nat)) (lo n : Nat) (w : Nat → Bool),
    (∀ p ∈ bs, 1 ≤ p.2) →
    List.Pairwise (fun p q : Nat × Nat => p.1 + p.2 < q.1) bs →
    (∀ p ∈ bs, lo ≤ p.1 ∧ p.1 + p.2 ≤ n) →
    (∀ c, lo ≤ c → c < n → (w c = true ↔ ∃ p ∈ bs, p.1 ≤ c ∧ c < p.1 + p.2)) →
    runs ((List.range' lo (n - lo)).map w) = bs.map fun p => p.2 := by
  intro bs
  induction bs with
  | nil =>
    intro lo n w _ _ _ hpt
    rw [List.map_nil]
    apply runs_all_false
    intro b hb
    rw [List.mem_map] at hb
    obtain ⟨c, hc, rfl⟩ := hb
    rw [List.mem_range'_1] at hc
    have := hpt c hc.1 (by omega)
    simpa using this
  | cons p bs ih =>
    rintro lo n w hpos hpair hbnd hpt
    obtain ⟨s, k⟩ := p
    have hk : 1 ≤ k := hpos (s, k) (List.mem_cons_self _ _)
    have hlos : lo ≤ s := (hbnd (s, k) (List.mem_cons_self _ _)).1
    have hskn : s + k ≤ n := (hbnd (s, k) (List.mem_cons_self _ _)).2
    have hpair' := List.pairwise_cons.mp hpair
    have hsplit : List.range' lo (n - lo) =
        List.range' lo (s - lo) ++
          (List.range' s k ++ List.range' (s + k) (n - (s + k))) := by
      calc List.range' lo (n - lo)
          = List.range' lo (n - (s + k) + k + (s - lo)) := by
            rw [show n - (s + k) + k + (s - lo) = n - lo from by omega]
        _ = List.range' lo (s - lo) ++ List.range' (lo + (s - lo)) (n - (s + k) + k) :=
            (List.range'_append_1 lo (s - lo) (n - (s + k) + k)).symm
        _ = List.range' lo (s - lo) ++ List.range' s (n - (s + k) + k) := by
            rw [show lo + (s - lo) = s from by omega]
        _ = List.range' lo (s - lo) ++
              (List.range' s k ++ List.range' (s + k) (n - (s + k))) := by
            rw [List.range'_append_1 s k (n - (s + k))]
    rw [hsplit, List.map_append, List.map_append]
    have hpart1 : (List.range' lo (s - lo)).map w = List.replicate (s - lo) false := by
      rw [List.eq_replicate_iff]
      constructor
      · simp
      · intro b hb
        rw [List.mem_map] at hb
        obtain ⟨c, hc, rfl⟩ := hb
        rw [List.mem_range'_1] at hc
        have hcs : c < s := by omega
        by_contra hwc
        have hwc' : w c = true := by
          cases hval : w c
          · exact absurd hval hwc
          · rfl
        rw [hpt c hc.1 (by omega)] at hwc'
        obtain ⟨q, hq, hq1, hq2⟩ := hwc'
        rcases List.mem_cons.mp hq with rfl | hq'
        · simp at hq1 hq2
          omega
        · have := hpair'.1 q hq'
          omega
    have hpart2 : (List.range' s k).map w = List.replicate k true := by
      rw [List.eq_replicate_iff]
      constructor
      · simp
      · intro b hb
        rw [List.mem_map] at hb
        obtain ⟨c, hc, rfl⟩ := hb
        rw [List.mem_range'_1] at hc
        rw [hpt c (by omega) (by omega)]
        exact ⟨(s, k), List.mem_cons_self _ _, by simp; omega⟩
    rw [hpart1, hpart2, runs_replicate_false_append]
    have hhead : (List.range' (s + k) (n - (s + k))).map w = [] ∨
        ((List.range' (s + k) (n - (s + k))).map w).head? = some false := by
      by_cases hn0 : n - (s + k) = 0
      · left
        rw [hn0]
        rfl
      · right
        obtain ⟨m', hm'⟩ : ∃ m', n - (s + k) = m' + 1 := ⟨n - (s + k) - 1, by omega⟩
        rw [hm', List.range'_succ, List.map_cons, List.head?_cons]
        have hwf : w (s + k) = false := by
          cases hval : w (s + k)
          · rfl
          · rw [hpt (s + k) (by omega) (by omega)] at hval
            obtain ⟨q, hq, hq1, hq2⟩ := hval
            rcases List.mem_cons.mp hq with rfl | hq'
            · simp at hq1 hq2
            · have := hpair'.1 q hq'
              omega
        rw [hwf]
    rw [runs_replicate_true_append _ k hk hhead, List.map_cons]
    congr 1
    apply ih (s + k) n w (fun q hq => hpos q (List.mem_cons_of_mem _ hq)) hpair'.2
      (fun q hq => ⟨Nat.le_of_lt (hpair'.1 q hq), (hbnd q (List.mem_cons_of_mem _ hq)).2⟩)
    intro c hc1 hc2
    rw [hpt c (by omega) hc2]
    constructor
    · rintro ⟨q, hq, hq1, hq2⟩
      rcases List.mem_cons.mp hq with rfl | hq'
      · simp at hq1 hq2
        omega
      · exact ⟨q, hq', hq1, hq2⟩
    · rintro ⟨q, hq, hq1, hq2⟩
      exact ⟨q, List.mem_cons_of_mem _ hq, hq1, hq2⟩

theorem head_dropWhile_id :
    ∀ (l : List Bool) (b : Bool), (l.dropWhile fun x => x).head? = some b → b = false := by
  intro l
  induction l with
  | nil =>
    intro b h
    simp at h
  | cons a t ih =>
    intro b h
    cases a with
    | true =>
      rw [List.dropWhile_cons] at h
      simp only [if_true] at h
      exact ih b h
    | false =>
      rw [List.dropWhile_cons] at h
      simp at h
      exact h

theorem takeWhile_id_getD_true (t : List Bool) :
    ∀ j, j < (t.takeWhile fun b => b).length → t.getD j false = true := by
  intro j hj
  conv_lhs => rw [← List.takeWhile_append_dropWhile (p := fun b => b) (l := t)]
  rw [List.getD_eq_getElem?_getD, List.getElem?_append_left hj,
    List.getElem?_eq_getElem hj]
  simp only [Option.getD_some]
  exact List.mem_takeWhile_imp (p := fun b => b) (l := t) (List.getElem_mem hj)

theorem getD_append_length_add {α : Type} (l1 l2 : List α) (d : α) (c : Nat) :
    (l1 ++ l2).getD (l1.length + c) d = l2.getD c d := by
  rw [List.getD_eq_getElem?_getD, List.getElem?_append_right (by omega),
    show l1.length + c - l1.length = c from by omega, ← List.getD_eq_getElem?_getD]

theorem blocks_of_runs_aux :
    ∀ (n : Nat) (L : List Bool), L.length ≤ n →
    ∃ bs : List (Nat × Nat),
      runs L = bs.map (fun p => p.2) ∧
      (∀ p ∈ bs, 1 ≤ p.2) ∧
      List.Pairwise (fun p q : Nat × Nat => p.1 + p.2 < q.1) bs ∧
      (∀ p ∈ bs, p.1 + p.2 ≤ L.length) ∧
      (∀ c, c < L.length → (L.getD c false = true ↔ ∃ p ∈ bs, p.1 ≤ c ∧ c < p.1 + p.2)) := by
  intro n
  induction n with
  | zero =>
    intro L hL
    have h0 : L = [] := List.length_eq_zero.mp (by omega)
    subst h0
    exact ⟨[], by simp [runs_nil], by simp, by simp, by simp,
      fun c hc => absurd hc (by simp)⟩
  | succ n ih =>
    intro L hL
    match L with
    | [] =>
      exact ⟨[], by simp [runs_nil], by simp, by simp, by simp,
        fun c hc => absurd hc (by simp)⟩
    | false :: t =>
      obtain ⟨bs', h1, h2, h3, h4, h5⟩ := ih t (by simp at hL; omega)
      refine ⟨bs'.map (fun p => (p.1 + 1, p.2)), ?_, ?_, ?_, ?_, ?_⟩
      · rw [runs_false_cons, h1, List.map_map]
        rfl
      · intro p hp
        rw [List.mem_map] at hp
        obtain ⟨q, hq, rfl⟩ := hp
        exact h2 q hq
      · exact List.Pairwise.map _ (fun a b hab => by dsimp only; omega) h3
      · intro p hp
        rw [List.mem_map] at hp
        obtain ⟨q, hq, rfl⟩ := hp
        have := h4 q hq
        simp only [List.length_cons]
        omega
      · intro c hc
        cases c with
        | zero =>
          simp only [List.getD_cons_zero]
          refine iff_of_false (by simp) ?_
          rintro ⟨p, hp, hp1, hp2⟩
          rw [List.mem_map] at hp
          obtain ⟨q, hq, rfl⟩ := hp
          dsimp only at hp1
          omega
        | succ c' =>
          simp only [List.getD_cons_succ]
          rw [h5 c' (by simp at hc; omega)]
          constructor
          · rintro ⟨q, hq, hq1, hq2⟩
            exact ⟨(q.1 + 1, q.2), List.mem_map_of_mem _ hq,
              by dsimp only; omega, by dsimp only; omega⟩
          · rintro ⟨p, hp, hp1, hp2⟩
            rw [List.mem_map] at hp
            obtain ⟨q, hq, rfl⟩ := hp
            dsimp only at hp1 hp2
            exact ⟨q, hq, by omega, by omega⟩
    | true :: t =>
      obtain ⟨bs', h1, h2, h3, h4, h5⟩ := ih (t.dropWhile fun b => b)
        (by
          have := (List.dropWhile_sublist (l := t) (fun b => b)).length_le
          simp only [List.length_cons] at hL
          omega)
      have htlen : (t.takeWhile fun b => b).length + (t.dropWhile fun b => b).length
          = t.length := by
        conv_rhs => rw [← List.takeWhile_append_dropWhile (p := fun b => b) (l := t)]
        rw [List.length_append]
      have hdw_first : ∀ q ∈ bs', 0 < q.1 := by
        intro q hq
        by_contra h0
        have hq1 : q.1 = 0 := by omega
        have hq2 := h2 q hq
        have hlen0 : 0 < (t.dropWhile fun b => b).length := by
          have := h4 q hq
          omega
        have htrue := (h5 0 hlen0).mpr ⟨q, hq, by omega⟩
        revert htrue
        cases hdw : t.dropWhile fun b => b with
        | nil => rw [hdw] at hlen0; simp at hlen0
        | cons b t' =>
          have hb : b = false := head_dropWhile_id t b (by rw [hdw]; rfl)
          subst hb
          simp
      refine ⟨(0, (t.takeWhile fun b => b).length + 1) ::
        bs'.map (fun p => (p.1 + ((t.takeWhile fun b => b).length + 1), p.2)),
        ?_, ?_, ?_, ?_, ?_⟩
      · rw [runs_true_cons, h1, List.map_cons, List.map_map]
        rfl
      · intro p hp
        rcases List.mem_cons.mp hp with rfl | hp'
        · omega
        · rw [List.mem_map] at hp'
          obtain ⟨q, hq, rfl⟩ := hp'
          exact h2 q hq
      · rw [List.pairwise_cons]
        constructor
        · intro p hp
          rw [List.mem_map] at hp
          obtain ⟨q, hq, rfl⟩ := hp
          have := hdw_first q hq
          dsimp only
          omega
        · exact List.Pairwise.map _ (fun a b hab => by dsimp only; omega) h3
      · intro p hp
        rcases List.mem_cons.mp hp with rfl | hp'
        · simp only [List.length_cons]
          omega
        · rw [List.mem_map] at hp'
          obtain ⟨q, hq, rfl⟩ := hp'
          have := h4 q hq
          simp only [List.length_cons]
          omega
      · intro c hc
        simp only [List.length_cons] at hc
        by_cases hcb : c < (t.takeWhile fun b => b).length + 1
        · have hLc : (true :: t).getD c false = true := by
            cases c with
            | zero => rfl
            | succ c' =>
              simp only [List.getD_cons_succ]
              exact takeWhile_id_getD_true t c' (by omega)
          rw [hLc]
          exact iff_of_true rfl ⟨(0, (t.takeWhile fun b => b).length + 1),
            List.mem_cons_self _ _, by dsimp only; omega, by dsimp only; omega⟩
        · obtain ⟨c', rfl⟩ : ∃ c', c = (t.takeWhile fun b => b).length + 1 + c' :=
            ⟨c - ((t.takeWhile fun b => b).length + 1), by omega⟩
          have hc' : c' < (t.dropWhile fun b => b).length := by omega
          have hLc : (true :: t).getD ((t.takeWhile fun b => b).length + 1 + c') false =
              (t.dropWhile fun b => b).getD c' false := by
            rw [show (t.takeWhile fun b => b).length + 1 + c' =
              ((t.takeWhile fun b => b).length + c') + 1 from by omega]
            rw [List.getD_cons_succ]
            conv_rhs => rw [← getD_append_length_add (t.takeWhile fun b => b)
              (t.dropWhile fun b => b) false c']
            rw [List.takeWhile_append_dropWhile]
          rw [hLc, h5 c' hc']
          constructor
          · rintro ⟨q, hq, hq1, hq2⟩
            exact ⟨(q.1 + ((t.takeWhile fun b => b).length + 1), q.2),
              List.mem_cons_of_mem _ (List.mem_map_of_mem _ hq),
              by dsimp only; omega, by dsimp only; omega⟩
          · rintro ⟨p, hp, hp1, hp2⟩
            rcases List.mem_cons.mp hp with rfl | hp'
            · exfalso
              dsimp only at hp2
              omega
            · rw [List.mem_map] at hp'
              obtain ⟨q, hq, rfl⟩ := hp'
              dsimp only at hp1 hp2
              exact ⟨q, hq, by omega, by omega⟩

theorem blocks_of_runs (L : List Bool) :
    ∃ bs : List (Nat × Nat),
      runs L = bs.map (fun p => p.2) ∧
      (∀ p ∈ bs, 1 ≤ p.2) ∧
      List.Pairwise (fun p q : Nat × Nat => p.1 + p.2 < q.1) bs ∧
      (∀ p ∈ bs, p.1 + p.2 ≤ L.length) ∧
      (∀ c, c < L.length → (L.getD c false = true ↔ ∃ p ∈ bs, p.1 ≤ c ∧ c < p.1 + p.2)) :=
  blocks_of_runs_aux L.length L (Nat.le_refl _)

theorem getD_map_range {α : Type} (f : Nat → α) (m i : Nat) (d : α) (h : i < m) :
    ((List.range m).map f).getD i d = f i := by
  rw [List.getD_eq_getElem?_getD, List.getElem?_map, List.getElem?_range h]
  rfl

theorem forall_mem_map_range {α : Type} (f : Nat → α) (n : Nat) (P : α → Prop) :
    (∀ x ∈ (List.range n).map f, P x) ↔ ∀ i < n, P (f i) := by
  constructor
  · intro h i hi
    exact h _ (List.mem_map_of_mem _ (List.mem_range.mpr hi))
  · intro h x hx
    rw [List.mem_map] at hx
    obtain ⟨i, hi, rfl⟩ := hx
    exact h i (List.mem_range.mp hi)

theorem forall_mem_flatMap_range {α : Type} (f : Nat → List α) (n : Nat) (P : α → Prop) :
    (∀ x ∈ (List.range n).flatMap f, P x) ↔ ∀ i < n, ∀ x ∈ f i, P x := by
  constructor
  · intro h i hi x hx
    exact h _ (List.mem_flatMap.mpr ⟨i, List.mem_range.mpr hi, hx⟩)
  · intro h x hx
    rw [List.mem_flatMap] at hx
    obtain ⟨i, hi, hx⟩ := hx
    exact h i (List.mem_range.mp hi) x hx

theorem prepare_vectors_length (vectors : List (List Int)) (vn : String) :
    (prepare_vectors vectors vn).length = vectors.length := by
  simp [prepare_vectors]

theorem prepare_vectors_getD (vectors : List (List Int)) (vn : String) (r : Nat)
    (h : r < vectors.length) :
    (prepare_vectors vectors vn).getD r [] =
      (List.range (vectors.getD r []).length).map fun index =>
        (ITerm.svar (startIndexName vn r index), (vectors.getD r []).getD index 0) := by
  rw [prepare_vectors, getD_map_range _ _ _ _ (by simpa using h)]

theorem map_getD_range (ks : List Int) :
    (List.range ks.length).map (fun i => ks.getD i 0) = ks := by
  refine List.ext_getElem (by simp) ?_
  intro i h1 h2
  simp only [List.getElem_map, List.getElem_range]
  rw [List.getD_eq_getElem?_getD, List.getElem?_eq_getElem h2, Option.getD_some]

/-- The per-vector content of the sequence formulas of one row or column:
the cells of each block are true, the cell after each block is false, the
first block starts at a nonnegative index, each later block leaves a gap
after the previous one, and the last block ends within the bound. -/
def VecSeq (bound : Nat) (v : Int → Bool) (ks : List Int) (sv : Nat → Int) : Prop :=
  ∀ i < ks.length,
    (∀ z : Int, sv i ≤ z → z < sv i + ks.getD i 0 → v z = true) ∧
    v (sv i + ks.getD i 0) = false ∧
    (i = 0 → 0 ≤ sv i) ∧
    (i ≠ 0 → sv (i - 1) + ks.getD (i - 1) 0 < sv i) ∧
    (i = ks.length - 1 → sv i + ks.getD i 0 ≤ (bound : Int))

/-- The per-vector content of the sum-check formulas: the number of true
cells of the vector equals the clue total. -/
def VecSum (n : Nat) (v : Int → Bool) (total : Int) : Prop :=
  ((List.range n).map fun c => if v (Int.ofNat c) then (1 : Int) else 0).sum = total

theorem seqItem_eval_iff (a : NAsg) (cell : ITerm → Bool → NForm) (P : Int → Bool)
    (hcell : ∀ t b xv, NForm.eval a xv (cell t b) = (P (ITerm.eval a xv t) = b))
    (bound m i : Nat) (nmp nmc : String) (kp kc : Int) :
    (∀ φ ∈ seqItemFormulas cell bound m i (.svar nmp, kp) (.svar nmc, kc),
        NForm.eval a 0 φ) ↔
    ((∀ z : Int, a.iv nmc ≤ z → z < a.iv nmc + kc → P z = true) ∧
     P (a.iv nmc + kc) = false ∧
     (i = 0 → 0 ≤ a.iv nmc) ∧
     (i ≠ 0 → a.iv nmp + kp < a.iv nmc) ∧
     (i = m - 1 → a.iv nmc + kc ≤ (bound : Int))) := by
  rw [seqItemFormulas]
  by_cases h0 : i = 0 <;> by_cases h1 : i = m - 1
  · subst h0
    rw [if_pos rfl, if_pos h1]
    simp [NForm.eval, NForm.evalConj, ITerm.eval, hcell, ← h1, and_assoc, and_imp]
  · subst h0
    rw [if_pos rfl, if_neg h1]
    simp [NForm.eval, NForm.evalConj, ITerm.eval, hcell, h1, and_assoc, and_imp]
  · subst h1
    rw [if_neg h0, if_pos rfl]
    simp [NForm.eval, NForm.evalConj, ITerm.eval, hcell, h0, and_assoc, and_imp]
  · rw [if_neg h0, if_neg h1]
    simp [NForm.eval, NForm.evalConj, ITerm.eval, hcell, h0, h1, and_assoc, and_imp]

theorem seq_rows_eval_iff (a : NAsg) (sym : FSym) (rows : List (List Int)) (ncols : Nat) :
    NForm.eval a 0 (seq_rows_formulas ncols (prepare_vectors rows "row") sym) ↔
    ∀ r < rows.length,
      VecSeq ncols (fun z => a.fI sym (Int.ofNat r) z) (rows.getD r [])
        (fun i => a.iv (startIndexName "row" r i)) := by
  rw [seq_rows_formulas, neval_andL, evalConj_iff, prepare_vectors_length,
    forall_mem_map_range]
  refine forall_congr' fun r => ?_
  refine imp_congr_right fun hr => ?_
  rw [neval_andL, evalConj_iff, prepare_vectors_getD rows "row" r hr]
  simp only [List.length_map, List.length_range]
  rw [forall_mem_flatMap_range]
  simp only [VecSeq]
  refine forall_congr' fun i => ?_
  refine imp_congr_right fun hi => ?_
  rw [getD_map_range _ _ _ _ hi, getD_map_range _ _ _ _ (by omega : i - 1 < (rows.getD r []).length)]
  exact seqItem_eval_iff a (rowCell sym r) (fun z => a.fI sym (Int.ofNat r) z)
    (fun t b xv => rfl) ncols (rows.getD r []).length i _ _ _ _

theorem seq_cols_eval_iff (a : NAsg) (sym : FSym) (cols : List (List Int)) (nrows : Nat) :
    NForm.eval a 0 (seq_columns_formulas nrows (prepare_vectors cols "col") sym) ↔
    ∀ c < cols.length,
      VecSeq nrows (fun z => a.fI sym z (Int.ofNat c)) (cols.getD c [])
        (fun i => a.iv (startIndexName "col" c i)) := by
  rw [seq_columns_formulas, neval_andL, evalConj_iff, prepare_vectors_length,
    forall_mem_map_range]
  refine forall_congr' fun c => ?_
  refine imp_congr_right fun hc => ?_
  rw [neval_andL, evalConj_iff, prepare_vectors_getD cols "col" c hc]
  simp only [List.length_map, List.length_range]
  rw [forall_mem_flatMap_range]
  simp only [VecSeq]
  refine forall_congr' fun i => ?_
  refine imp_congr_right fun hi => ?_
  rw [getD_map_range _ _ _ _ hi, getD_map_range _ _ _ _ (by omega : i - 1 < (cols.getD c []).length)]
  exact seqItem_eval_iff a (colCell sym c) (fun z => a.fI sym z (Int.ofNat c))
    (fun t b xv => rfl) nrows (cols.getD c []).length i _ _ _ _

theorem sum_rows_eval_iff (a : NAsg) (sym : FSym) (rows : List (List Int)) (ncols : Nat) :
    NForm.eval a 0 (sum_check_rows ncols (prepare_vectors rows "row") sym) ↔
    ∀ r < rows.length,
      VecSum ncols (fun z => a.fI sym (Int.ofNat r) z) ((rows.getD r []).sum) := by
  rw [sum_check_rows, neval_andL, evalConj_iff, prepare_vectors_length,
    forall_mem_map_range]
  refine forall_congr' fun r => ?_
  refine imp_congr_right fun hr => ?_
  rw [prepare_vectors_getD rows "row" r hr]
  simp only [NForm.eval, List.map_map, Function.comp_def, ITerm.eval, VecSum]
  rw [show ((List.range (rows.getD r []).length).map fun i => (rows.getD r []).getD i 0) =
    rows.getD r [] from map_getD_range _]

theorem sum_cols_eval_iff (a : NAsg) (sym : FSym) (cols : List (List Int)) (nrows : Nat) :
    NForm.eval a 0 (sum_check_columns nrows (prepare_vectors cols "col") sym) ↔
    ∀ c < cols.length,
      VecSum nrows (fun z => a.fI sym z (Int.ofNat c)) ((cols.getD c []).sum) := by
  rw [sum_check_columns, neval_andL, evalConj_iff, prepare_vectors_length,
    forall_mem_map_range]
  refine forall_congr' fun c => ?_
  refine imp_congr_right fun hc => ?_
  rw [prepare_vectors_getD cols "col" c hc]
  simp only [NForm.eval, List.map_map, Function.comp_def, ITerm.eval, VecSum]
  rw [show ((List.range (cols.getD c []).length).map fun i => (cols.getD c []).getD i 0) =
    cols.getD c [] from map_getD_range _]

theorem generate_all_eval_iff (a : NAsg) (sym : FSym) (rows cols : List (List Int)) :
    NForm.eval a 0 (generate_all_formulas rows cols sym) ↔
    ((∀ r < rows.length,
        VecSeq cols.length (fun z => a.fI sym (Int.ofNat r) z) (rows.getD r [])
          (fun i => a.iv (startIndexName "row" r i)) ∧
        VecSum cols.length (fun z => a.fI sym (Int.ofNat r) z) ((rows.getD r []).sum)) ∧
     (∀ c < cols.length,
        VecSeq rows.length (fun z => a.fI sym z (Int.ofNat c)) (cols.getD c [])
          (fun i => a.iv (startIndexName "col" c i)) ∧
        VecSum rows.length (fun z => a.fI sym z (Int.ofNat c)) ((cols.getD c []).sum))) := by
  rw [generate_all_formulas, neval_andL]
  simp only [NForm.evalConj]
  rw [seq_rows_eval_iff, sum_rows_eval_iff, sum_cols_eval_iff, seq_cols_eval_iff]
  constructor
  · rintro ⟨h1, h2, h3, h4, -⟩
    exact ⟨fun r hr => ⟨h1 r hr, h2 r hr⟩, fun c hc => ⟨h4 c hc, h3 c hc⟩⟩
  · rintro ⟨hro, hco⟩
    exact ⟨fun r h => (hro r h).1, fun r h => (hro r h).2, fun c h => (hco c h).2,
      fun c h => (hco c h).1, trivial⟩

theorem getD_mem_of_lt {α : Type} (l : List α) (i : Nat) (d : α) (h : i < l.length) :
    l.getD i d ∈ l := by
  rw [List.getD_eq_getElem?_getD, List.getElem?_eq_getElem h, Option.getD_some]
  exact List.getElem_mem h

theorem vecseq_chain (bound : Nat) (v : Int → Bool) (ks : List Int) (sv : Nat → Int)
    (h : VecSeq bound v ks sv) (hpos : ∀ k ∈ ks, 1 ≤ k) :
    ∀ j < ks.length, ∀ i < j, sv i + ks.getD i 0 < sv j := by
  intro j
  induction j with
  | zero =>
    intro _ i hi
    exact absurd hi (by omega)
  | succ j ih =>
    intro hj i hi
    have hgap := (h (j + 1) hj).2.2.2.1 (by omega)
    simp only [Nat.add_sub_cancel] at hgap
    rcases Nat.lt_or_ge i j with hij | hij
    · have hci := ih (by omega) i hij
      have hkj : 1 ≤ ks.getD j 0 := hpos _ (getD_mem_of_lt _ _ _ (by omega))
      omega
    · have hieq : i = j := by omega
      subst hieq
      exact hgap

theorem vecseq_nonneg (bound : Nat) (v : Int → Bool) (ks : List Int) (sv : Nat → Int)
    (h : VecSeq bound v ks sv) (hpos : ∀ k ∈ ks, 1 ≤ k) :
    ∀ i < ks.length, 0 ≤ sv i := by
  intro i hi
  rcases Nat.eq_zero_or_pos i with rfl | hpos0
  · exact (h 0 hi).2.2.1 rfl
  · have h0 : 0 ≤ sv 0 := (h 0 (by omega)).2.2.1 rfl
    have hc := vecseq_chain bound v ks sv h hpos i hi 0 hpos0
    have hk0 : 1 ≤ ks.getD 0 0 := hpos _ (getD_mem_of_lt _ _ _ (by omega))
    omega

theorem vecseq_upper (bound : Nat) (v : Int → Bool) (ks : List Int) (sv : Nat → Int)
    (h : VecSeq bound v ks sv) (hpos : ∀ k ∈ ks, 1 ≤ k) :
    ∀ i < ks.length, sv i + ks.getD i 0 ≤ (bound : Int) := by
  intro i hi
  by_cases hlast : i = ks.length - 1
  · exact (h i hi).2.2.2.2 hlast
  · have hl : ks.length - 1 < ks.length := by omega
    have hchain := vecseq_chain bound v ks sv h hpos (ks.length - 1) hl i (by omega)
    have hklast : 1 ≤ ks.getD (ks.length - 1) 0 := hpos _ (getD_mem_of_lt _ _ _ hl)
    have hlastb := (h (ks.length - 1) hl).2.2.2.2 rfl
    omega

theorem list_range_map_sum (f : Nat → Int) :
    ∀ m, ((List.range m).map f).sum = ∑ i ∈ Finset.range m, f i := by
  intro m
  induction m with
  | zero => simp
  | succ m ih =>
    rw [List.range_succ, List.map_append, List.sum_append, Finset.sum_range_succ, ih]
    simp

theorem range_ite_sum_eq_Ico (v : Int → Bool) (n : Nat) :
    ((List.range n).map fun c => if v (Int.ofNat c) then (1 : Int) else 0).sum =
      ∑ x ∈ Finset.Ico (0 : Int) (n : Int), (if v x then (1 : Int) else 0) := by
  induction n with
  | zero => simp
  | succ n ih =>
    rw [List.range_succ, List.map_append, List.sum_append, ih]
    have hins : Finset.Ico (0 : Int) ((n + 1 : Nat) : Int) =
        insert (n : Int) (Finset.Ico (0 : Int) (n : Int)) := by
      refine Finset.ext fun x => ?_
      simp only [Finset.mem_Ico, Finset.mem_insert]
      push_cast
      omega
    rw [hins, Finset.sum_insert (by simp)]
    simp only [List.map_cons, List.map_nil, List.sum_cons, List.sum_nil, Int.ofNat_eq_coe]
    omega

theorem sum_ite_true_eq_card (B : Finset Int) (v : Int → Bool)
    (h : ∀ x ∈ B, v x = true) :
    (∑ x ∈ B, (if v x then (1 : Int) else 0)) = (B.card : Int) := by
  rw [Finset.sum_congr rfl fun x hx => if_pos (h x hx)]
  simp

theorem vec_sound (n : Nat) (v : Int → Bool) (ks : List Int) (sv : Nat → Int)
    (hpos : ∀ k ∈ ks, 1 ≤ k)
    (hseq : VecSeq n v ks sv) (hsum : VecSum n v ks.sum) :
    (runs ((List.range n).map fun c => v (Int.ofNat c))).map (fun x => Int.ofNat x) = ks := by
  have hchain := vecseq_chain n v ks sv hseq hpos
  have hnonneg := vecseq_nonneg n v ks sv hseq hpos
  have hupper := vecseq_upper n v ks sv hseq hpos
  have hk : ∀ i < ks.length, 1 ≤ ks.getD i 0 :=
    fun i hi => hpos _ (getD_mem_of_lt _ _ _ hi)
  rw [VecSum] at hsum
  have hfalse : ∀ c : Nat, c < n →
      (∀ i < ks.length, ¬(sv i ≤ (Int.ofNat c) ∧ (Int.ofNat c) < sv i + ks.getD i 0)) →
      v (Int.ofNat c) = false := by
    intro c hc hni
    by_contra hvc
    have hvc' : v (Int.ofNat c) = true := by
      cases hval : v (Int.ofNat c)
      · exact absurd hval hvc
      · rfl
    set B := (Finset.range ks.length).biUnion
      (fun i => Finset.Ico (sv i) (sv i + ks.getD i 0)) with hB
    have hBsub : B ⊆ Finset.Ico (0 : Int) (n : Int) := by
      intro x hx
      rw [hB, Finset.mem_biUnion] at hx
      obtain ⟨i, hi, hx⟩ := hx
      rw [Finset.mem_range] at hi
      rw [Finset.mem_Ico] at hx ⊢
      have := hnonneg i hi
      have := hupper i hi
      omega
    have hBtrue : ∀ x ∈ B, v x = true := by
      intro x hx
      rw [hB, Finset.mem_biUnion] at hx
      obtain ⟨i, hi, hx⟩ := hx
      rw [Finset.mem_range] at hi
      rw [Finset.mem_Ico] at hx
      exact (hseq i hi).1 x hx.1 hx.2
    have hcard : (B.card : Int) = ks.sum := by
      rw [hB, Finset.card_biUnion]
      · have hcards : ∀ i ∈ Finset.range ks.length,
            (Finset.Ico (sv i) (sv i + ks.getD i 0)).card = (ks.getD i 0).toNat := by
          intro i _
          rw [Int.card_Ico]
          congr 1
          omega
        rw [Finset.sum_congr rfl hcards, Nat.cast_sum,
          Finset.sum_congr rfl (fun i hi => Int.toNat_of_nonneg
            (by have := hk i (Finset.mem_range.mp hi); omega)),
          ← list_range_map_sum, map_getD_range]
      · intro i hi j hj hij
        rw [Finset.mem_range] at hi hj
        rw [Finset.disjoint_left]
        intro x hxi hxj
        rw [Finset.mem_Ico] at hxi hxj
        rcases Nat.lt_or_ge i j with h' | h'
        · have := hchain j hj i h'
          omega
        · have hji : j < i := by omega
          have := hchain i hi j hji
          omega
    have hsplit := Finset.sum_sdiff (f := fun x => if v x then (1 : Int) else 0) hBsub
    have hBsum := sum_ite_true_eq_card B v hBtrue
    have htot : (∑ x ∈ Finset.Ico (0 : Int) (n : Int), if v x then (1 : Int) else 0) =
        ks.sum := by
      rw [← range_ite_sum_eq_Ico]
      exact hsum
    have hzero : (∑ x ∈ Finset.Ico (0 : Int) (n : Int) \ B,
        if v x then (1 : Int) else 0) = 0 := by
      linarith [hsplit, hBsum, hcard, htot]
    have hmem : (Int.ofNat c) ∈ Finset.Ico (0 : Int) (n : Int) \ B := by
      rw [Finset.mem_sdiff]
      constructor
      · rw [Finset.mem_Ico]
        refine ⟨by simp, ?_⟩
        simp only [Int.ofNat_eq_coe]
        exact_mod_cast hc
      · rw [hB, Finset.mem_biUnion]
        rintro ⟨i, hi, hx⟩
        rw [Finset.mem_range] at hi
        rw [Finset.mem_Ico] at hx
        exact hni i hi ⟨hx.1, hx.2⟩
    have hterm : ∀ x ∈ Finset.Ico (0 : Int) (n : Int) \ B,
        0 ≤ (if v x then (1 : Int) else 0) := by
      intro x _
      split <;> omega
    have hres := (Finset.sum_eq_zero_iff_of_nonneg hterm).mp hzero _ hmem
    rw [if_pos hvc'] at hres
    exact absurd hres (by omega)
  have hblocks := runs_of_blocks
    ((List.range ks.length).map fun i => ((sv i).toNat, (ks.getD i 0).toNat))
    0 n (fun c => v (Int.ofNat c)) ?_ ?_ ?_ ?_
  · rw [← List.range_eq_range'] at hblocks
    rw [show n - 0 = n from rfl] at hblocks
    rw [hblocks, List.map_map, List.map_map]
    simp only [Function.comp_def]
    rw [List.map_congr_left (fun i hi => by
      rw [List.mem_range] at hi
      have := hk i hi
      exact Int.toNat_of_nonneg (by omega) : ∀ i ∈ List.range ks.length,
        Int.ofNat ((ks.getD i 0).toNat) = ks.getD i 0), map_getD_range]
  · intro p hp
    rw [List.mem_map] at hp
    obtain ⟨i, hi, rfl⟩ := hp
    rw [List.mem_range] at hi
    have := hk i hi
    dsimp only
    omega
  · rw [List.pairwise_iff_get]
    intro i j hij
    simp only [List.get_eq_getElem, List.getElem_map, List.getElem_range]
    have hi : (i : Nat) < ks.length := by
      have := i.isLt
      simpa using this
    have hj : (j : Nat) < ks.length := by
      have := j.isLt
      simpa using this
    have := hchain j hj i hij
    have := hnonneg i hi
    have := hnonneg j hj
    have := hk i hi
    omega
  · intro p hp
    rw [List.mem_map] at hp
    obtain ⟨i, hi, rfl⟩ := hp
    rw [List.mem_range] at hi
    have := hnonneg i hi
    have := hupper i hi
    have := hk i hi
    dsimp only
    constructor <;> omega
  · intro c _ hcn
    constructor
    · intro hvt
      by_contra hnb
      dsimp only at hvt
      have hvf := hfalse c hcn ?_
      · rw [hvf] at hvt
        simp at hvt
      · intro i hi hcontra
        apply hnb
        simp only [Int.ofNat_eq_coe] at hcontra
        refine ⟨((sv i).toNat, (ks.getD i 0).toNat),
          List.mem_map_of_mem _ (List.mem_range.mpr hi), ?_, ?_⟩ <;>
          (dsimp only; have := hnonneg i hi; have := hk i hi; omega)
    · rintro ⟨p, hp, h1, h2⟩
      rw [List.mem_map] at hp
      obtain ⟨i, hi, rfl⟩ := hp
      rw [List.mem_range] at hi
      dsimp only at h1 h2
      apply (hseq i hi).1 (Int.ofNat c) <;>
        (simp only [Int.ofNat_eq_coe]
         have := hnonneg i hi
         have := hk i hi
         omega)

theorem sum_ite_eq_countP :
    ∀ (L : List Bool),
      (L.map fun b => if b then (1 : Int) else 0).sum =
        Int.ofNat (L.countP fun b => b) := by
  intro L
  induction L with
  | nil => rfl
  | cons a t ih =>
    cases a <;>
      simp [List.countP_cons, ih, Int.ofNat_eq_coe] <;> omega

theorem sum_map_ofNat :
    ∀ l : List Nat, (l.map fun x => Int.ofNat x).sum = Int.ofNat l.sum := by
  intro l
  induction l with
  | nil => rfl
  | cons a t ih => simp [ih, Int.ofNat_eq_coe]

theorem vec_complete (n : Nat) (v : Int → Bool) (ks : List Int)
    (hruns : (runs ((List.range n).map fun c => v (Int.ofNat c))).map
      (fun x => Int.ofNat x) = ks)
    (hfence : v (Int.ofNat n) = false) :
    ∃ sv : Nat → Int, VecSeq n v ks sv ∧ VecSum n v ks.sum := by
  obtain ⟨bs, hb1, hb2, hb3, hb4, hb5⟩ :=
    blocks_of_runs ((List.range n).map fun c => v (Int.ofNat c))
  have hL : ((List.range n).map fun c => v (Int.ofNat c)).length = n := by simp
  rw [hL] at hb4
  simp only [hL] at hb5
  have hbsj : ∀ j (h : j < bs.length), bs.getD j (0, 0) = bs[j] := by
    intro j h
    rw [List.getD_eq_getElem?_getD, List.getElem?_eq_getElem h, Option.getD_some]
  have hlen : ks.length = bs.length := by
    rw [← hruns, List.length_map, hb1, List.length_map]
  have hksi : ∀ j, j < ks.length →
      ks.getD j 0 = (((bs.getD j (0, 0)).2 : Nat) : Int) := by
    intro j hj
    have hj' : j < bs.length := by omega
    rw [← hruns, hb1, List.getD_eq_getElem?_getD, List.getElem?_map, List.getElem?_map,
      List.getElem?_eq_getElem hj', hbsj j hj']
    simp [Int.ofNat_eq_coe]
  have hget := List.pairwise_iff_get.mp hb3
  refine ⟨fun i => (((bs.getD i (0, 0)).1 : Nat) : Int), ?_, ?_⟩
  · intro i hi
    dsimp only
    have hi' : i < bs.length := by omega
    have hmem := getD_mem_of_lt bs i (0, 0) hi'
    have hend := hb4 _ hmem
    have hone := hb2 _ hmem
    have hki := hksi i hi
    refine ⟨?_, ?_, ?_, ?_, ?_⟩
    · intro z hz1 hz2
      rw [hki] at hz2
      have hzn : 0 ≤ z := le_trans (by positivity) hz1
      have hc : z.toNat < n := by omega
      have htrue := (hb5 z.toNat hc).mpr
        ⟨bs.getD i (0, 0), hmem, by omega, by omega⟩
      rw [getD_map_range _ _ _ _ hc] at htrue
      rwa [show Int.ofNat z.toNat = z from Int.toNat_of_nonneg hzn] at htrue
    · rw [hki]
      rcases Nat.eq_or_lt_of_le hend with heq | hlt
      · have harg : ((((bs.getD i (0, 0)).1 : Nat) : Int) +
            (((bs.getD i (0, 0)).2 : Nat) : Int)) = Int.ofNat n := by
          rw [Int.ofNat_eq_coe]
          exact_mod_cast heq
        rw [harg]
        exact hfence
      · have hnotb : ¬∃ p ∈ bs,
            p.1 ≤ (bs.getD i (0, 0)).1 + (bs.getD i (0, 0)).2 ∧
            (bs.getD i (0, 0)).1 + (bs.getD i (0, 0)).2 < p.1 + p.2 := by
          rintro ⟨p, hp, hp1, hp2⟩
          obtain ⟨j, hj, rfl⟩ := List.getElem_of_mem hp
          rcases Nat.lt_trichotomy j i with h' | h' | h'
          · have := hget ⟨j, hj⟩ ⟨i, hi'⟩ h'
            simp only [List.get_eq_getElem] at this
            rw [hbsj i hi'] at hp1 hp2
            omega
          · subst h'
            rw [hbsj j hj] at hp2
            omega
          · have := hget ⟨i, hi'⟩ ⟨j, hj⟩ h'
            simp only [List.get_eq_getElem] at this
            rw [hbsj i hi'] at hp1 hp2
            omega
        have hfv : ((List.range n).map fun c => v (Int.ofNat c)).getD
            ((bs.getD i (0, 0)).1 + (bs.getD i (0, 0)).2) false = false := by
          cases hval : ((List.range n).map fun c => v (Int.ofNat c)).getD
              ((bs.getD i ((0 : Nat), (0 : Nat))).1 + (bs.getD i (0, 0)).2) false
          · rfl
          · exact absurd ((hb5 _ hlt).mp hval) hnotb
        rw [getD_map_range _ _ _ _ hlt] at hfv
        rw [show ((((bs.getD i (0, 0)).1 : Nat) : Int) +
          (((bs.getD i (0, 0)).2 : Nat) : Int)) =
          Int.ofNat ((bs.getD i (0, 0)).1 + (bs.getD i (0, 0)).2) from by
            simp [Int.ofNat_eq_coe]]
        exact hfv
    · intro _
      positivity
    · intro hne
      have him : i - 1 < i := by omega
      have hi1' : i - 1 < bs.length := by omega
      have hchain := hget ⟨i - 1, hi1'⟩ ⟨i, hi'⟩ him
      simp only [List.get_eq_getElem] at hchain
      rw [hksi (i - 1) (by omega), hbsj (i - 1) hi1', hbsj i hi']
      push_cast
      omega
    · intro _
      rw [hki]
      push_cast
      omega
  · simp only [VecSum]
    rw [show ((List.range n).map fun c => if v (Int.ofNat c) then (1 : Int) else 0) =
      (((List.range n).map fun c => v (Int.ofNat c)).map
        fun b => if b then (1 : Int) else 0) from by rw [List.map_map]; rfl]
    rw [sum_ite_eq_countP, ← sum_runs, ← hruns, sum_map_ofNat]

theorem VecSeq_congr (bound : Nat) (v : Int → Bool) (ks : List Int)
    (sv sv' : Nat → Int) (h : ∀ i < ks.length, sv i = sv' i) :
    VecSeq bound v ks sv → VecSeq bound v ks sv' := by
  intro hv i hi
  obtain ⟨h1, h2, h3, h4, h5⟩ := hv i hi
  have he : sv i = sv' i := h i hi
  refine ⟨?_, ?_, ?_, ?_, ?_⟩
  · intro z hz1 hz2
    exact h1 z (by rw [he]; exact hz1) (by rw [he]; exact hz2)
  · rw [← he]
    exact h2
  · intro h0
    rw [← he]
    exact h3 h0
  · intro hne
    rw [← he, ← h (i - 1) (by omega)]
    exact h4 hne
  · intro hl
    rw [← he]
    exact h5 hl

theorem find?_eq_of_unique (l : List (String × Int)) (k : String) (val : Int)
    (hmem : (k, val) ∈ l) (huniq : ∀ p ∈ l, p.1 = k → p.2 = val) :
    l.find? (fun p => p.1 == k) = some (k, val) := by
  induction l with
  | nil => simp at hmem
  | cons q t ih =>
    obtain ⟨q1, q2⟩ := q
    by_cases hq : ((q1, q2) : String × Int).1 == k
    · rw [List.find?_cons_of_pos (p := fun q : String × Int => q.1 == k) _ hq]
      have hq1 : q1 = k := eq_of_beq hq
      have hq2 : q2 = val := huniq (q1, q2) (List.mem_cons_self _ _) hq1
      rw [hq1, hq2]
    · rw [List.find?_cons_of_neg (p := fun q : String × Int => q.1 == k) _ hq]
      apply ih
      · rcases List.mem_cons.mp hmem with heq | h
        · exfalso
          apply hq
          rw [← heq]
          exact beq_self_eq_true k
        · exact h
      · intro p hp hpk
        exact huniq p (List.mem_cons_of_mem _ hp) hpk

/-- The assignment interpreting every cell as false and every integer
variable as 0, used to refute the original claim C2 on a zero clue. -/
def aAllFalse : NAsg :=
  { fI := fun _ _ _ => false, iv := fun _ => 0 }

/-- C2 counterexample: with a zero clue (row clue list `[0]` for a one-cell
row and an empty clue list for the single column), the all-false assignment
satisfies every formula of `generate_all_formulas`, yet the maximal runs of
true cells in row 0 are `[]` and not `[0]`: satisfaction is not equivalent
to the clue lists describing the maximal runs. -/
theorem claim_C2_counterexample :
    NForm.eval aAllFalse 0 (generate_all_formulas [[0]] [[]] .f) ∧
    ¬ RunsMatch [[0]] [[]] (aAllFalse.fI .f) := by
  constructor
  · rw [generate_all_eval_iff]
    constructor
    · intro r hr
      have hr0 : r = 0 := by simpa using hr
      subst hr0
      constructor
      · intro i hi
        have hi0 : i = 0 := by simpa using hi
        subst hi0
        refine ⟨?_, ?_, ?_, ?_, ?_⟩
        · intro z hz1 hz2
          exfalso
          simp [aAllFalse] at hz1 hz2
          omega
        · rfl
        · intro _
          simp [aAllFalse]
        · intro h
          exact absurd rfl h
        · intro _
          simp [aAllFalse]
      · simp [VecSum, aAllFalse]
    · intro c hc
      have hc0 : c = 0 := by simpa using hc
      subst hc0
      constructor
      · intro i hi
        simp at hi
      · simp [VecSum, aAllFalse]
  · rintro ⟨h1, -⟩
    have hrow := h1 0 (by simp)
    simp [gridRow, aAllFalse, List.range_succ, runs_false_cons, runs_nil] at hrow

/-- C2 (amended): for clue lists whose entries are all positive, an
assignment satisfies `generate_all_formulas` exactly when the maximal runs
of true cells of every grid row and column match the clue lists — in the
sound direction every satisfying assignment's grid matches the clues
(`RunsMatch`), and in the complete direction every grid whose runs match
the clues extends (with false cells outside the grid) to a satisfying
assignment agreeing with it on the grid.  The original claim fails without
positivity: a clue `0` produces formulas satisfied by an all-false vector
whose maximal run list is `[]`, not `[0]`. -/
theorem claim_C2_runs_correspondence (rows cols : List (List Int))
    (hrpos : ∀ ks ∈ rows, ∀ k ∈ ks, 1 ≤ k)
    (hcpos : ∀ ks ∈ cols, ∀ k ∈ ks, 1 ≤ k) :
    (∀ a : NAsg, NForm.eval a 0 (generate_all_formulas rows cols .f) →
       RunsMatch rows cols (a.fI .f)) ∧
    (∀ w : Int → Int → Bool, RunsMatch rows cols w →
       ∃ a : NAsg,
         (∀ r < rows.length, ∀ c < cols.length,
           a.fI .f (Int.ofNat r) (Int.ofNat c) = w (Int.ofNat r) (Int.ofNat c)) ∧
         NForm.eval a 0 (generate_all_formulas rows cols .f)) := by
  constructor
  · intro a ha
    rw [generate_all_eval_iff] at ha
    obtain ⟨hrow, hcol⟩ := ha
    constructor
    · intro r hr
      obtain ⟨hseq, hsum⟩ := hrow r hr
      exact vec_sound cols.length (fun z => a.fI .f (Int.ofNat r) z) (rows.getD r [])
        (fun i => a.iv (startIndexName "row" r i))
        (hrpos _ (getD_mem_of_lt _ _ _ hr)) hseq hsum
    · intro c hc
      obtain ⟨hseq, hsum⟩ := hcol c hc
      exact vec_sound rows.length (fun z => a.fI .f z (Int.ofNat c)) (cols.getD c [])
        (fun i => a.iv (startIndexName "col" c i))
        (hcpos _ (getD_mem_of_lt _ _ _ hc)) hseq hsum
  · intro w hw
    obtain ⟨v, hvdef⟩ : ∃ v : Int → Int → Bool, v = fun r c =>
        if 0 ≤ r ∧ r < (rows.length : Int) ∧ 0 ≤ c ∧ c < (cols.length : Int)
        then w r c else false := ⟨_, rfl⟩
    have hvgrid : ∀ r < rows.length, ∀ c < cols.length,
        v (Int.ofNat r) (Int.ofNat c) = w (Int.ofNat r) (Int.ofNat c) := by
      intro r hr c hc
      rw [hvdef]
      refine if_pos ⟨by simp [Int.ofNat_eq_coe], ?_, by simp [Int.ofNat_eq_coe], ?_⟩
      · rw [Int.ofNat_eq_coe]
        exact_mod_cast hr
      · rw [Int.ofNat_eq_coe]
        exact_mod_cast hc
    have hgr : ∀ r < rows.length, gridRow v cols.length r = gridRow w cols.length r := by
      intro r hr
      simp only [gridRow]
      apply List.map_congr_left
      intro c hc
      rw [List.mem_range] at hc
      exact hvgrid r hr c hc
    have hgc : ∀ c < cols.length, gridCol v rows.length c = gridCol w rows.length c := by
      intro c hc
      simp only [gridCol]
      apply List.map_congr_left
      intro r hr
      rw [List.mem_range] at hr
      exact hvgrid r hr c hc
    have hwv : RunsMatch rows cols v := by
      obtain ⟨h1, h2⟩ := hw
      exact ⟨fun r hr => by rw [hgr r hr]; exact h1 r hr,
        fun c hc => by rw [hgc c hc]; exact h2 c hc⟩
    have hrowex : ∀ r, ∃ sv : Nat → Int, r < rows.length →
        (VecSeq cols.length (fun z => v (Int.ofNat r) z) (rows.getD r []) sv ∧
         VecSum cols.length (fun z => v (Int.ofNat r) z) ((rows.getD r []).sum)) := by
      intro r
      by_cases hr : r < rows.length
      · have hfence : v (Int.ofNat r) (Int.ofNat cols.length) = false := by
          rw [hvdef]
          refine if_neg ?_
          rintro ⟨-, -, -, hlt⟩
          rw [Int.ofNat_eq_coe] at hlt
          exact absurd hlt (lt_irrefl _)
        obtain ⟨sv, hsv⟩ := vec_complete cols.length (fun z => v (Int.ofNat r) z)
          (rows.getD r []) (hwv.1 r hr) hfence
        exact ⟨sv, fun _ => hsv⟩
      · exact ⟨fun _ => 0, fun h => absurd h hr⟩
    have hcolex : ∀ c, ∃ sv : Nat → Int, c < cols.length →
        (VecSeq rows.length (fun z => v z (Int.ofNat c)) (cols.getD c []) sv ∧
         VecSum rows.length (fun z => v z (Int.ofNat c)) ((cols.getD c []).sum)) := by
      intro c
      by_cases hc : c < cols.length
      · have hfence : v (Int.ofNat rows.length) (Int.ofNat c) = false := by
          rw [hvdef]
          refine if_neg ?_
          rintro ⟨-, hlt, -, -⟩
          rw [Int.ofNat_eq_coe] at hlt
          exact absurd hlt (lt_irrefl _)
        obtain ⟨sv, hsv⟩ := vec_complete rows.length (fun z => v z (Int.ofNat c))
          (cols.getD c []) (hwv.2 c hc) hfence
        exact ⟨sv, fun _ => hsv⟩
      · exact ⟨fun _ => 0, fun h => absurd h hc⟩
    choose svr hsvr using hrowex
    choose svc hsvc using hcolex
    obtain ⟨iv, hivdef⟩ : ∃ iv : String → Int, iv = fun nm =>
        (((((List.range rows.length).flatMap fun r =>
            (List.range (rows.getD r []).length).map fun i =>
              (startIndexName "row" r i, svr r i)) ++
          ((List.range cols.length).flatMap fun c =>
            (List.range (cols.getD c []).length).map fun i =>
              (startIndexName "col" c i, svc c i))).find? fun p =>
                p.1 == nm).map fun p => p.2).getD 0 := ⟨_, rfl⟩
    have hivrow : ∀ r < rows.length, ∀ i < (rows.getD r []).length,
        iv (startIndexName "row" r i) = svr r i := by
      intro r hr i hi
      simp only [hivdef]
      rw [find?_eq_of_unique _ (startIndexName "row" r i) (svr r i) ?_ ?_]
      · rfl
      · apply List.mem_append_left
        rw [List.mem_flatMap]
        exact ⟨r, List.mem_range.mpr hr, List.mem_map_of_mem _ (List.mem_range.mpr hi)⟩
      · intro p hp hpk
        rw [List.mem_append] at hp
        rcases hp with hp | hp
        · rw [List.mem_flatMap] at hp
          obtain ⟨r', hr', hp⟩ := hp
          rw [List.mem_map] at hp
          obtain ⟨i', hi', rfl⟩ := hp
          dsimp only at hpk ⊢
          obtain ⟨-, hre, hie⟩ := startIndexName_inj (by decide) (by decide) hpk
          rw [hre, hie]
        · rw [List.mem_flatMap] at hp
          obtain ⟨c', hc', hp⟩ := hp
          rw [List.mem_map] at hp
          obtain ⟨i', hi', rfl⟩ := hp
          dsimp only at hpk
          obtain ⟨hvn, -, -⟩ := startIndexName_inj (by decide) (by decide) hpk
          exact absurd hvn (by decide)
    have hivcol : ∀ c < cols.length, ∀ i < (cols.getD c []).length,
        iv (startIndexName "col" c i) = svc c i := by
      intro c hc i hi
      simp only [hivdef]
      rw [find?_eq_of_unique _ (startIndexName "col" c i) (svc c i) ?_ ?_]
      · rfl
      · apply List.mem_append_right
        rw [List.mem_flatMap]
        exact ⟨c, List.mem_range.mpr hc, List.mem_map_of_mem _ (List.mem_range.mpr hi)⟩
      · intro p hp hpk
        rw [List.mem_append] at hp
        rcases hp with hp | hp
        · rw [List.mem_flatMap] at hp
          obtain ⟨r', hr', hp⟩ := hp
          rw [List.mem_map] at hp
          obtain ⟨i', hi', rfl⟩ := hp
          dsimp only at hpk
          obtain ⟨hvn, -, -⟩ := startIndexName_inj (by decide) (by decide) hpk
          exact absurd hvn (by decide)
        · rw [List.mem_flatMap] at hp
          obtain ⟨c', hc', hp⟩ := hp
          rw [List.mem_map] at hp
          obtain ⟨i', hi', rfl⟩ := hp
          dsimp only at hpk ⊢
          obtain ⟨-, hce, hie⟩ := startIndexName_inj (by decide) (by decide) hpk
          rw [hce, hie]
    refine ⟨{ fI := fun _ => v, iv := iv }, ?_, ?_⟩
    · intro r hr c hc
      exact hvgrid r hr c hc
    · rw [generate_all_eval_iff]
      constructor
      · intro r hr
        obtain ⟨hseq, hsum⟩ := hsvr r hr
        refine ⟨?_, hsum⟩
        exact VecSeq_congr cols.length (fun z => v (Int.ofNat r) z) (rows.getD r [])
          (svr r) (fun i => iv (startIndexName "row" r i))
          (fun i hi => (hivrow r hr i hi).symm) hseq
      · intro c hc
        obtain ⟨hseq, hsum⟩ := hsvc c hc
        refine ⟨?_, hsum⟩
        exact VecSeq_congr rows.length (fun z => v z (Int.ofNat c)) (cols.getD c [])
          (svc c) (fun i => iv (startIndexName "col" c i))
          (fun i hi => (hivcol c hc i hi).symm) hseq

theorem claim_C2_runs_correspondence_witness :
    ((∀ ks ∈ [[(1 : Int)]], ∀ k ∈ ks, 1 ≤ k) ∧
     (∀ ks ∈ [[(1 : Int)]], ∀ k ∈ ks, 1 ≤ k)) ∧
    ((∀ a : NAsg, NForm.eval a 0 (generate_all_formulas [[1]] [[1]] .f) →
        RunsMatch [[1]] [[1]] (a.fI .f)) ∧
     (∀ w : Int → Int → Bool, RunsMatch [[1]] [[1]] w →
        ∃ a : NAsg,
          (∀ r < ([[(1 : Int)]]).length, ∀ c < ([[(1 : Int)]]).length,
            a.fI .f (Int.ofNat r) (Int.ofNat c) = w (Int.ofNat r) (Int.ofNat c)) ∧
          NForm.eval a 0 (generate_all_formulas [[1]] [[1]] .f))) := by
  have h1 : ∀ ks ∈ [[(1 : Int)]], ∀ k ∈ ks, 1 ≤ k := by decide
  exact ⟨⟨h1, h1⟩, claim_C2_runs_correspondence [[1]] [[1]] h1 h1⟩
